import Mathlib

/-!
Verification of the Beta Evolve evolutionary code refinement engine.

Source files are embedded shallowly:
* `src/core/evolution.c` — region parser/assembler/updater and custom-test classifier;
* `src/core/evaluation.c` — scoring pipeline and criteria check;
* `src/main.c` — the collaboration iteration loop.

Source text is modelled as `List Char` (`Chars`); C `double` as `ℚ`;
C `int`/`long` as `Int` or `Nat` where the source keeps them non-negative.
External processes (compiler runs, agent calls) are abstracted as inputs.
-/

set_option maxRecDepth 10000

namespace BetaEvolve

/-- Source text / C strings as lists of characters. -/
abbrev Chars := List Char

/-- `strstr`-style containment: does `p` occur as a contiguous substring of `s`?
(`strstr(s, p) != NULL`). -/
def containsSeq (p : Chars) : Chars → Bool
  | [] => p.isPrefixOf []
  | c :: s => p.isPrefixOf (c :: s) || containsSeq p s

/-- Index of the first occurrence of `p` in `s` (`strstr(s, p) - s`). -/
def strstrIdx (p : Chars) : Chars → Option Nat
  | [] => if p.isPrefixOf [] then some 0 else none
  | c :: s => if p.isPrefixOf (c :: s) then some 0 else (strstrIdx p s).map (· + 1)

/-- `EVOLUTION_MARKER_START` from `beta_evolve.h`. -/
def markerStart : Chars := "// BETA EVOLVE START".data

/-- `EVOLUTION_MARKER_END` from `beta_evolve.h`. -/
def markerEnd : Chars := "// BETA EVOLVE END".data

/-- Leading-whitespace skip from `parse_evolution_regions`
(`while (*trimmed == ' ' || *trimmed == '\t') trimmed++`). -/
def trimWs (l : Chars) : Chars := l.dropWhile (fun c => c == ' ' || c == '\t')

/-- One line of `strtok(code, "\n")` splitting: split at every newline,
keeping empty pieces (they are filtered below, as `strtok` skips them). -/
def splitNl : Chars → List Chars
  | [] => [[]]
  | c :: s =>
    if c = '\n' then [] :: splitNl s
    else
      match splitNl s with
      | t :: ts => (c :: t) :: ts
      | [] => [[c]]

/-- `strtok(code, "\n")` tokenization: nonempty maximal newline-free runs.
Empty lines produce no token. -/
def splitTok (s : Chars) : List Chars := (splitNl s).filter (· ≠ [])

/-- Join lines back, each line newline-terminated. -/
def joinNl (ls : List Chars) : Chars := (ls.map (· ++ ['\n'])).flatten

/-- One region of `code_evolution_t` (`evolution_region_t`). -/
structure EvoRegion where
  description : Chars
  content : Chars
  start_line : Nat
  end_line : Nat
  generation : Nat
  fitness_score : ℚ
  deriving Repr, DecidableEq

/-- `code_evolution_t`: the fixed array plus `region_count` is modelled as a
list (the 50-slot cap is enforced by the operations, as in the source). -/
structure CodeEvolution where
  regions : List EvoRegion
  evolution_enabled : Bool
  deriving Repr, DecidableEq

/-- `MAX_EVOLUTION_REGIONS`. -/
def maxEvolutionRegions : Nat := 50

/-- `MAX_EVOLUTION_DESCRIPTION` minus the NUL terminator: `strncpy` copies at
most 255 characters into the 256-byte description buffer. -/
def maxDescriptionLen : Nat := 255

/-- Trailing-whitespace trim used on the copied description: removes trailing
blanks but the loop guard `end > current_description` never erases the first
character. -/
def rtrimDesc (l : Chars) : Chars :=
  let dropped := (l.reverse.dropWhile (fun c => c == ' ' || c == '\t' || c == '\n' || c == '\r')).reverse
  if dropped = [] then l.take 1 else dropped

/-- Description extraction at a start-marker line (`parse_evolution_regions`):
skip past the first occurrence of the start marker, then past blanks and
colons; a nonempty remainder is copied (truncated to 255) and right-trimmed,
otherwise `region_<idx+1>` is synthesized. -/
def descFromLine (trimmed : Chars) (region_idx : Nat) : Chars :=
  let rest :=
    match strstrIdx markerStart trimmed with
    | some k => (trimmed.drop (k + markerStart.length)).dropWhile
        (fun c => c == ' ' || c == '\t' || c == ':')
    | none => []
  if rest ≠ [] then rtrimDesc (rest.take maxDescriptionLen)
  else ("region_" ++ toString (region_idx + 1)).data

/-- The scanning loop of `parse_evolution_regions`. State: current token-line
index `i`, number of closed regions `ridx` (the loop stops once it reaches
`MAX_EVOLUTION_REGIONS`), and the open region, if any, as
`(start_line, description, accumulated content)`. An open region left at end
of input is discarded (its `dstring` is destroyed without being saved). -/
def parseGo (i ridx : Nat) (openR : Option (Nat × Chars × Chars)) :
    List Chars → List EvoRegion
  | [] => []
  | l :: ls =>
    if maxEvolutionRegions ≤ ridx then []
    else
      let trimmed := trimWs l
      if containsSeq markerStart trimmed then
        match openR with
        | some st => parseGo (i + 1) ridx (some st) ls  -- nested start: warning, ignored
        | none => parseGo (i + 1) ridx (some (i, descFromLine trimmed ridx, [])) ls
      else if containsSeq markerEnd trimmed then
        match openR with
        | none => parseGo (i + 1) ridx none ls          -- end without start: warning, ignored
        | some (s, d, acc) =>
          { description := d, content := acc, start_line := s, end_line := i,
            generation := 0, fitness_score := 0 } :: parseGo (i + 1) (ridx + 1) none ls
      else
        match openR with
        | some (s, d, acc) => parseGo (i + 1) ridx (some (s, d, acc ++ l ++ ['\n'])) ls
        | none => parseGo (i + 1) ridx none ls

/-- `parse_evolution_regions`: no start marker anywhere means evolution is
disabled with zero regions; otherwise the line scanner runs over at most 4095
token lines (the fixed `lines[4096]` buffer is filled while
`line_count < 4095`). -/
def parseEvolutionRegions (code : Chars) : CodeEvolution :=
  if containsSeq markerStart code then
    { regions := parseGo 0 0 none ((splitTok code).take 4095), evolution_enabled := true }
  else
    { regions := [], evolution_enabled := false }

/-- Region lookup in `assemble_evolved_code`: first region whose recorded
`[start_line, end_line]` span brackets the current line index. -/
def findRegion (regions : List EvoRegion) (i : Nat) : Option EvoRegion :=
  regions.find? (fun r => r.start_line ≤ i && i ≤ r.end_line)

/-- Mode of the reconstruction walk in `assemble_evolved_code`:
`normal` is the top of the outer `while`; `found` is the inner
skip-to-end-marker loop after evolved content was emitted; `fallback` is the
copy-original-body loop used when no region matched. -/
inductive AsmMode | normal | found | fallback
  deriving Repr, DecidableEq

/-- The reconstruction walk of `assemble_evolved_code`, one token line per
step. On a start-marker line the marker is kept verbatim; if a region's span
brackets the line index its content is emitted (newline-appended unless the
content already ends in one — the source reads `content[strlen-1]` which is
out of bounds for empty content; the model emits no extra newline then),
after which lines are skipped until an end marker; otherwise the original
body is copied through. The skip loop starts at the marker line itself, so a
start line that also contains the end marker is emitted twice. -/
def assembleGo (regions : List EvoRegion) : Nat → AsmMode → List Chars → Chars
  | _, _, [] => []
  | i, .normal, l :: ls =>
    if containsSeq markerStart l then
      match findRegion regions i with
      | some r =>
        let cpart := r.content ++
          (if r.content ≠ [] ∧ r.content.getLast? ≠ some '\n' then ['\n'] else [])
        if containsSeq markerEnd l then
          (l ++ ['\n']) ++ cpart ++ (l ++ ['\n']) ++ assembleGo regions (i + 1) .normal ls
        else
          (l ++ ['\n']) ++ cpart ++ assembleGo regions (i + 1) .found ls
      | none => (l ++ ['\n']) ++ assembleGo regions (i + 1) .fallback ls
    else (l ++ ['\n']) ++ assembleGo regions (i + 1) .normal ls
  | i, .found, l :: ls =>
    if containsSeq markerEnd l then (l ++ ['\n']) ++ assembleGo regions (i + 1) .normal ls
    else assembleGo regions (i + 1) .found ls
  | i, .fallback, l :: ls =>
    if containsSeq markerEnd l then (l ++ ['\n']) ++ assembleGo regions (i + 1) .normal ls
    else (l ++ ['\n']) ++ assembleGo regions (i + 1) .fallback ls

/-- `assemble_evolved_code`: with evolution disabled or no regions the
original text is returned unchanged (`strdup`); otherwise the line walk
reassembles it (this path has no 4096-line cap — the line array grows). -/
def assembleEvolvedCode (ev : CodeEvolution) (original : Chars) : Chars :=
  if ¬ ev.evolution_enabled then original
  else if ev.regions.isEmpty then original
  else assembleGo ev.regions 0 .normal (splitTok original)

/-- In-place part of `update_evolution_region`: replace the first region whose
description compares equal (`strcmp == 0`), bumping its generation. `none`
when no region matches. -/
def updateGo (desc newContent : Chars) : List EvoRegion → Option (List EvoRegion)
  | [] => none
  | r :: rs =>
    if r.description = desc then
      some ({ r with content := newContent, generation := r.generation + 1 } :: rs)
    else (updateGo desc newContent rs).map (r :: ·)

/-- `update_evolution_region`: update the first matching region in place, else
append a fresh region (description truncated to 255 by `strncpy`, generation
1) — but only while the region array has room. -/
def updateEvolutionRegion (ev : CodeEvolution) (desc newContent : Chars) : CodeEvolution :=
  match updateGo desc newContent ev.regions with
  | some rs => { ev with regions := rs }
  | none =>
    if ev.regions.length < maxEvolutionRegions then
      { ev with regions := ev.regions ++
          [{ description := desc.take maxDescriptionLen, content := newContent,
             start_line := 0, end_line := 0, generation := 1, fitness_score := 0 }] }
    else ev

/-! ### Testing pipeline (`src/core/evolution.c`, `src/core/testing.c`) -/

/-- `test_result_t`. -/
structure TestResult where
  syntax_ok : Bool
  compilation_ok : Bool
  execution_ok : Bool
  error_message : Chars
  output : Chars
  deriving Repr, DecidableEq

/-- `has_code_errors` (`testing.c`). -/
def hasCodeErrors (t : TestResult) : Bool :=
  !t.syntax_ok || !t.compilation_ok || !t.execution_ok

/-- The exit-code/output classification at the end of `run_custom_test`,
given the child's `WEXITSTATUS` and the captured combined output.
(The command expansion, `popen` and the bounded read that precede it are
process I/O and are abstracted into the two inputs.) -/
def runCustomTestClassify (actualExitCode : Nat) (output : Chars) : TestResult :=
  if actualExitCode = 0 then
    { syntax_ok := true, compilation_ok := true, execution_ok := true,
      error_message := [], output := output }
  else if containsSeq "error:".data output || containsSeq "undefined reference".data output
      || containsSeq "fatal error".data output || containsSeq "cannot find".data output then
    { syntax_ok := false, compilation_ok := false, execution_ok := false,
      error_message := "Compilation failed: ".data ++ output, output := output }
  else if containsSeq "segmentation fault".data output || containsSeq "abort".data output
      || containsSeq "core dumped".data output then
    { syntax_ok := true, compilation_ok := true, execution_ok := false,
      error_message := "Runtime error: ".data ++ output, output := output }
  else
    { syntax_ok := true, compilation_ok := true, execution_ok := false,
      error_message := ("Test failed (exit code " ++ toString actualExitCode ++ "): ").data
        ++ output, output := output }

/-! ### Evaluation pipeline (`src/core/evaluation.c`) -/

/-- `performance_metrics_t`. -/
structure PerformanceMetrics where
  execution_time_ms : ℚ
  memory_usage_kb : Int
  cpu_usage_percent : Int
  throughput : ℚ
  deriving Repr, DecidableEq

/-- `code_quality_metrics_t`. -/
structure QualityMetrics where
  lines_of_code : Int
  cyclomatic_complexity : Int
  function_count : Int
  max_function_length : Int
  maintainability_index : ℚ
  test_coverage_percent : ℚ
  code_duplication_percent : Int
  deriving Repr, DecidableEq

/-- `evaluation_criteria_t`. -/
structure EvaluationCriteria where
  min_performance_score : ℚ
  max_execution_time_ms : ℚ
  max_memory_usage_kb : Int
  target_throughput : ℚ
  min_test_coverage_percent : ℚ
  max_cyclomatic_complexity : Int
  enable_performance_profiling : Bool
  enable_memory_profiling : Bool
  enable_quality_analysis : Bool
  deriving Repr, DecidableEq

/-- `init_evaluation_criteria` defaults. -/
def defaultCriteria : EvaluationCriteria where
  min_performance_score := 70
  max_execution_time_ms := 1000
  max_memory_usage_kb := 10240
  target_throughput := 1000
  min_test_coverage_percent := 80
  max_cyclomatic_complexity := 10
  enable_performance_profiling := true
  enable_memory_profiling := true
  enable_quality_analysis := true

/-- `evaluation_result_t` (report strings and timestamp omitted: they are
formatted output, not used by any claim). -/
structure EvaluationResult where
  overall_score : ℚ
  correctness_score : ℚ
  performance_score : ℚ
  quality_score : ℚ
  performance : PerformanceMetrics
  quality : QualityMetrics
  test_result : TestResult
  passed_criteria : Bool
  deriving Repr, DecidableEq

/-- All-zero metrics (`= {0}` initialization). -/
def zeroPerformance : PerformanceMetrics where
  execution_time_ms := 0
  memory_usage_kb := 0
  cpu_usage_percent := 0
  throughput := 0

/-- All-zero quality metrics (`= {0}` initialization). -/
def zeroQuality : QualityMetrics where
  lines_of_code := 0
  cyclomatic_complexity := 0
  function_count := 0
  max_function_length := 0
  maintainability_index := 0
  test_coverage_percent := 0
  code_duplication_percent := 0

/-- `calculate_overall_score`: correctness 40%, performance 30%, quality 30%. -/
def calculateOverallScore (correctness performance quality : ℚ) : ℚ :=
  correctness * (4 / 10) + performance * (3 / 10) + quality * (3 / 10)

/-- Correctness scoring in `evaluate_code_comprehensive`:
33.33 for syntax, 33.33 for compilation, 33.34 for execution. -/
def correctnessScore (t : TestResult) : ℚ :=
  (if t.syntax_ok then (3333 : ℚ) / 100 else 0)
    + (if t.compilation_ok then (3333 : ℚ) / 100 else 0)
    + (if t.execution_ok then (3334 : ℚ) / 100 else 0)

/-- Performance scoring in `evaluate_code_comprehensive` (profiling-enabled
branch): start at 100, subtract proportional penalties for exceeding the
time and memory caps, scale down when throughput misses the target, clamp to
[0, 100]. -/
def performanceScoreEnabled (criteria : EvaluationCriteria) (perf : PerformanceMetrics) : ℚ :=
  let s1 :=
    if 0 < criteria.max_execution_time_ms ∧
        1 < perf.execution_time_ms / criteria.max_execution_time_ms then
      100 - (perf.execution_time_ms / criteria.max_execution_time_ms - 1) * 50
    else (100 : ℚ)
  let s2 :=
    if 0 < criteria.max_memory_usage_kb ∧
        1 < (perf.memory_usage_kb : ℚ) / (criteria.max_memory_usage_kb : ℚ) then
      s1 - ((perf.memory_usage_kb : ℚ) / (criteria.max_memory_usage_kb : ℚ) - 1) * 30
    else s1
  let s3 :=
    if 0 < criteria.target_throughput ∧ perf.throughput < criteria.target_throughput then
      s2 * (perf.throughput / criteria.target_throughput)
    else s2
  max 0 (min 100 s3)

/-- Quality scoring in `evaluate_code_comprehensive` (analysis-enabled
branch): start at 100, lose 20 for exceeding the complexity cap, scale by
coverage shortfall and by `maintainability/70` when below 70, clamp. -/
def qualityScoreEnabled (criteria : EvaluationCriteria) (q : QualityMetrics) : ℚ :=
  let s1 :=
    if 0 < criteria.max_cyclomatic_complexity ∧
        criteria.max_cyclomatic_complexity < q.cyclomatic_complexity then
      (100 : ℚ) - 20
    else (100 : ℚ)
  let s2 :=
    if 0 < criteria.min_test_coverage_percent ∧
        q.test_coverage_percent < criteria.min_test_coverage_percent then
      s1 * (q.test_coverage_percent / criteria.min_test_coverage_percent)
    else s1
  let s3 :=
    if q.maintainability_index < 70 then s2 * (q.maintainability_index / 70)
    else s2
  max 0 (min 100 s3)

/-- `evaluate_against_criteria`: the chain of early `return 0` checks. -/
def evaluateAgainstCriteria (result : EvaluationResult) (criteria : EvaluationCriteria) : Bool :=
  if result.performance_score < criteria.min_performance_score then false
  else if 0 < criteria.max_execution_time_ms ∧
      criteria.max_execution_time_ms < result.performance.execution_time_ms then false
  else if 0 < criteria.max_memory_usage_kb ∧
      criteria.max_memory_usage_kb < result.performance.memory_usage_kb then false
  else if 0 < criteria.min_test_coverage_percent ∧
      result.quality.test_coverage_percent < criteria.min_test_coverage_percent then false
  else if 0 < criteria.max_cyclomatic_complexity ∧
      criteria.max_cyclomatic_complexity < result.quality.cyclomatic_complexity then false
  else if ¬(result.test_result.syntax_ok ∧ result.test_result.compilation_ok ∧
      result.test_result.execution_ok) then false
  else true

/-- The scoring core of `evaluate_code_comprehensive`. The test verdict,
measured performance and analyzed quality are inputs: running the test
command, `measure_performance` and `analyze_code_quality` are process/text
front ends to this scoring logic. The disabled/uncompiled fall-backs (75/0
performance, 75 quality, zeroed metrics) are kept. -/
def evaluateCodeComprehensive (testResult : TestResult) (perf : PerformanceMetrics)
    (quality : QualityMetrics) (criteria : EvaluationCriteria) : EvaluationResult :=
  let correctness := correctnessScore testResult
  let perfOn := criteria.enable_performance_profiling ∧ testResult.compilation_ok
  let perfMetrics := if perfOn then perf else zeroPerformance
  let perfScore :=
    if perfOn then performanceScoreEnabled criteria perf
    else if testResult.execution_ok then (75 : ℚ) else 0
  let qualMetrics := if criteria.enable_quality_analysis then quality else zeroQuality
  let qualScore :=
    if criteria.enable_quality_analysis then qualityScoreEnabled criteria quality
    else (75 : ℚ)
  let result0 : EvaluationResult :=
    { overall_score := calculateOverallScore correctness perfScore qualScore
      correctness_score := correctness
      performance_score := perfScore
      quality_score := qualScore
      performance := perfMetrics
      quality := qualMetrics
      test_result := testResult
      passed_criteria := false }
  { result0 with passed_criteria := evaluateAgainstCriteria result0 criteria }

/-! ### Response cleaning and code extraction (`src/api/ai.c`,
`src/core/testing.c`) -/

/-- `validate_and_clean_response`: find the first ` ```c ` fence (else any
` ``` ` fence); with no fence, wrap the whole response in a synthesized
block; with an unterminated fence, append a closing fence; otherwise return
the response unchanged. -/
def validateAndCleanResponse (response : Chars) : Chars :=
  let start := (strstrIdx "```c".data response).orElse
    (fun _ => strstrIdx "```".data response)
  match start with
  | none =>
    "Analysis: Attempting to fix the code.\n\n```c\n".data ++ response ++ "\n```".data
  | some idx =>
    match strstrIdx "```".data (response.drop (idx + 3)) with
    | none => response ++ "\n```".data
    | some _ => response

/-- Trailing-whitespace trim applied to the extracted solution
(`update_solution_with_testing`): removes trailing blanks but the loop guard
`end > conv->current_solution` never erases the first character, so a
whitespace-only solution keeps its first character. -/
def rtrimSolution (l : Chars) : Chars :=
  let dropped :=
    (l.reverse.dropWhile (fun c => c == ' ' || c == '\t' || c == '\n' || c == '\r')).reverse
  if dropped = [] then l.take 1 else dropped

/-- The code-block extraction of `update_solution_with_testing`: locate the
first ` ```c ` fence (else any fence), skip to the character after the next
newline, and take everything up to the next ` ``` `; the copy happens only
when it fits in `max_code_size - 1`, and trailing whitespace is trimmed.
`none` leaves the current solution unchanged. -/
def extractSolutionCode (maxCodeSize : Nat) (response : Chars) : Option Chars :=
  match (strstrIdx "```c".data response).orElse
      (fun _ => strstrIdx "```".data response) with
  | none => none
  | some idx =>
    let tail := response.drop idx
    match strstrIdx ['\n'] tail with
    | none => none
    | some nl =>
      let afterNl := tail.drop (nl + 1)
      match strstrIdx "```".data afterNl with
      | none => none
      | some cend =>
        if cend + 1 < maxCodeSize then some (rtrimSolution (afterNl.take cend))
        else none

/-! ### Iteration orchestrator (`src/main.c`, `run_collaboration`) -/

/-- What one pass of the collaboration loop consumes from the outside world:
whether every agent call and response validation of the pass succeeded,
whether the pass left a nonempty current solution, and the `TestResult`
stored by `update_solution_with_testing`. -/
structure PassOutcome where
  agentOk : Bool
  solutionNonempty : Bool
  result : TestResult

/-- State of `run_collaboration`'s `for` loop. -/
structure LoopState where
  iteration : Nat
  total : Nat
  last : TestResult
  solutionNonempty : Bool
  exited : Bool
  fatal : Bool
  deriving Repr

/-- `init_conversation` zeroes the conversation, so the initial
`last_test_result` has all flags false. -/
def initialTestResult : TestResult :=
  { syntax_ok := false, compilation_ok := false, execution_ok := false,
    error_message := [], output := [] }

/-- The loop's initial state. -/
def initialLoopState : LoopState :=
  { iteration := 0, total := 0, last := initialTestResult,
    solutionNonempty := false, exited := false, fatal := false }

/-- One pass of the `run_collaboration` loop: first the `for` condition
(`iteration < config->iterations || has_code_errors(&last)`), then the
safety check (`total_iterations >= iterations * 3` breaks), then the body —
`total_iterations++`, the agent turns (failure aborts the run), the test
update, and the resolved-errors break (`iteration >= config->iterations`
with a nonempty solution and no errors). -/
def loopStep (cfgIterations : Nat) (oracle : Nat → PassOutcome) (s : LoopState) : LoopState :=
  if s.exited then s
  else if ¬ (s.iteration < cfgIterations ∨ hasCodeErrors s.last) then
    { s with exited := true }
  else if cfgIterations * 3 ≤ s.total then
    { s with exited := true }
  else
    let o := oracle s.total
    if ¬ o.agentOk then
      { s with total := s.total + 1, exited := true, fatal := true }
    else if o.solutionNonempty ∧ ¬ hasCodeErrors o.result ∧ cfgIterations ≤ s.iteration then
      { s with
        total := s.total + 1
        last := o.result
        solutionNonempty := o.solutionNonempty
        exited := true }
    else
      { s with
        total := s.total + 1
        last := o.result
        solutionNonempty := o.solutionNonempty
        iteration := s.iteration + 1 }

/-- The loop as iterated steps. -/
def loopRun (cfgIterations : Nat) (oracle : Nat → PassOutcome) : Nat → LoopState
  | 0 => initialLoopState
  | k + 1 => loopStep cfgIterations oracle (loopRun cfgIterations oracle k)

/-! ### Line classification and well-formedness of marker structure -/

/-- A line containing the start marker: `parse_evolution_regions` and
`assemble_evolved_code` both branch on `strstr(line, EVOLUTION_MARKER_START)`
(the parser searches the whitespace-trimmed line, which is equivalent since
the marker begins with `/`). -/
def isStartLine (l : Chars) : Bool := containsSeq markerStart l

/-- A line that closes a region: contains the end marker and is not a start
line (the parser checks the start marker first). -/
def isStopLine (l : Chars) : Bool := !containsSeq markerStart l && containsSeq markerEnd l

/-- A line containing neither marker. -/
def isPlainLine (l : Chars) : Bool := !containsSeq markerStart l && !containsSeq markerEnd l

/-- Well-formed marker structure over token lines: regions open and close
properly (no nesting, no stray end marker, no unterminated region), and no
start line also carries an end marker. The Boolean state tracks whether a
region is open. -/
def wfGo : Bool → List Chars → Bool
  | inR, [] => !inR
  | false, l :: ls =>
    if isStartLine l then !containsSeq markerEnd l && wfGo true ls
    else if isStopLine l then false
    else wfGo false ls
  | true, l :: ls =>
    if isStartLine l then false
    else if isStopLine l then wfGo false ls
    else wfGo true ls

/-- Well-formed (non-nested, properly closed) marker pairs. -/
def wfLines (ls : List Chars) : Bool := wfGo false ls

/-- Number of closed marker regions in the token lines. -/
def countBlocksGo : Bool → List Chars → Nat
  | _, [] => 0
  | false, l :: ls =>
    if isStartLine l then countBlocksGo true ls else countBlocksGo false ls
  | true, l :: ls =>
    if isStartLine l then countBlocksGo true ls
    else if isStopLine l then 1 + countBlocksGo false ls
    else countBlocksGo true ls

/-- Number of closed marker regions. -/
def countBlocks (ls : List Chars) : Nat := countBlocksGo false ls

/-- Every closed region has at least one body line. (For an empty region the
source reads `content[strlen(content)-1]`, one byte before an empty buffer —
undefined behaviour this development stays away from.) The optional state
records, for an open region, whether a body line was accumulated. -/
def bodiesOkGo : Option Bool → List Chars → Bool
  | _, [] => true
  | none, l :: ls =>
    if isStartLine l then bodiesOkGo (some false) ls else bodiesOkGo none ls
  | some b, l :: ls =>
    if isStartLine l then bodiesOkGo (some b) ls
    else if isStopLine l then b && bodiesOkGo none ls
    else bodiesOkGo (some true) ls

/-- All closed regions have nonempty bodies. -/
def bodiesOk (ls : List Chars) : Bool := bodiesOkGo none ls

/-- Body of the region opened at token line `j`: the following run of
marker-free lines. -/
def bodyAt (ls : List Chars) (j : Nat) : List Chars :=
  (ls.drop (j + 1)).takeWhile (fun x => isPlainLine x)

/-- The parsed regions cover the start lines of `ls` (placed at global index
`i`): at every start line the positional lookup of `assemble_evolved_code`
finds a region whose content is exactly the newline-joined body. -/
def Agree (regions : List EvoRegion) (i : Nat) (ls : List Chars) : Prop :=
  ∀ j l, ls.get? j = some l → isStartLine l = true →
    ∃ r, findRegion regions (i + j) = some r ∧
      r.content = joinNl (bodyAt ls j) ∧ bodyAt ls j ≠ []

/-! ### Pattern predicates of `run_custom_test` -/

/-- The compile-error text patterns `run_custom_test` scans for. -/
def compileErrorPattern (output : Chars) : Bool :=
  containsSeq "error:".data output || containsSeq "undefined reference".data output
    || containsSeq "fatal error".data output || containsSeq "cannot find".data output

/-- The runtime-crash text patterns `run_custom_test` scans for. -/
def crashPattern (output : Chars) : Bool :=
  containsSeq "segmentation fault".data output || containsSeq "abort".data output
    || containsSeq "core dumped".data output

/-! ### Concrete inputs used by counterexamples and witnesses -/

/-- A source text with one well-formed region, a blank line and no trailing
newline outside it. -/
def exampleSource : Chars :=
  "pre\n// BETA EVOLVE START: a\nbody\n// BETA EVOLVE END\n\npost".data

/-- A source text with two regions that carry the same description. -/
def duplicateDescSource : Chars :=
  ("// BETA EVOLVE START: alpha\nx\n// BETA EVOLVE END\n"
    ++ "// BETA EVOLVE START: alpha\ny\n// BETA EVOLVE END").data

/-- A source whose single region is opened but never closed. -/
def unclosedSource : Chars := "// BETA EVOLVE START: x\nstuff".data

/-- A context already holding `MAX_EVOLUTION_REGIONS` regions. -/
def fullContext : CodeEvolution where
  regions := (List.range maxEvolutionRegions).map fun n =>
    { description := ("r" ++ toString n).data, content := [],
      start_line := 0, end_line := 0, generation := 0, fitness_score := 0 }
  evolution_enabled := true

/-- A two-region context. -/
def smallContext : CodeEvolution where
  regions :=
    [ { description := "alpha".data, content := "old".data,
        start_line := 1, end_line := 3, generation := 4, fitness_score := 0 },
      { description := "beta".data, content := "keep".data,
        start_line := 5, end_line := 7, generation := 2, fitness_score := 0 } ]
  evolution_enabled := true

/-- `extract`-equivalent lookup of a region by description. -/
def lookupRegion (ev : CodeEvolution) (desc : Chars) : Option EvoRegion :=
  ev.regions.find? (fun r => r.description == desc)

/-- A pass oracle whose test result never clears its failing flags. -/
def failingOracle : Nat → PassOutcome := fun _ =>
  { agentOk := true, solutionNonempty := true, result := initialTestResult }

/-- A test result with all three stages passing. -/
def passingTestResult : TestResult :=
  { syntax_ok := true, compilation_ok := true, execution_ok := true,
    error_message := [], output := [] }

/-- A loop state that has reached the configured count with a clean last
test result. -/
def cleanLoopState : LoopState where
  iteration := 1
  total := 2
  last := { syntax_ok := true, compilation_ok := true, execution_ok := true,
            error_message := [], output := [] }
  solutionNonempty := true
  exited := false
  fatal := false

/-!
## Theorems

Claims C1–C10 of the specification, settled against the embedded source.
-/

/-- C2: `passed_criteria` is true iff all criteria hold at once: performance
score at least the minimum, execution time and memory within their (enabled)
caps, coverage and complexity within their (enabled) bounds, and all three
correctness stages true; any single violation fails the evaluation. -/
theorem passed_criteria_iff_all_bounds (result : EvaluationResult)
    (criteria : EvaluationCriteria) :
    evaluateAgainstCriteria result criteria = true ↔
      (criteria.min_performance_score ≤ result.performance_score
        ∧ (0 < criteria.max_execution_time_ms →
            result.performance.execution_time_ms ≤ criteria.max_execution_time_ms)
        ∧ (0 < criteria.max_memory_usage_kb →
            result.performance.memory_usage_kb ≤ criteria.max_memory_usage_kb)
        ∧ (0 < criteria.min_test_coverage_percent →
            criteria.min_test_coverage_percent ≤ result.quality.test_coverage_percent)
        ∧ (0 < criteria.max_cyclomatic_complexity →
            result.quality.cyclomatic_complexity ≤ criteria.max_cyclomatic_complexity)
        ∧ result.test_result.syntax_ok ∧ result.test_result.compilation_ok
        ∧ result.test_result.execution_ok) := by
  unfold evaluateAgainstCriteria
  split_ifs with h1 h2 h3 h4 h5 h6
  · simp only [false_iff]
    exact fun h => absurd h.1 (not_le.mpr h1)
  · simp only [false_iff]
    exact fun h => absurd (h.2.1 h2.1) (not_le.mpr h2.2)
  · simp only [false_iff]
    exact fun h => absurd (h.2.2.1 h3.1) (not_le.mpr h3.2)
  · simp only [false_iff]
    exact fun h => absurd (h.2.2.2.1 h4.1) (not_le.mpr h4.2)
  · simp only [false_iff]
    exact fun h => absurd (h.2.2.2.2.1 h5.1) (not_le.mpr h5.2)
  · -- the `if ¬(all three stages)` is normalized by `split_ifs`: this is the
    -- all-stages-true branch
    simp only [true_iff]
    push_neg at h2 h3 h4 h5
    exact ⟨le_of_not_lt h1, h2, h3, h4, h5, h6.1, h6.2.1, h6.2.2⟩
  · simp only [false_iff]
    exact fun h => h6 h.2.2.2.2.2

/-- A failed correctness stage forces `evaluate_against_criteria` to reject,
whatever the remaining fields hold. -/
theorem evaluateAgainstCriteria_false_of_stage (r : EvaluationResult)
    (c : EvaluationCriteria)
    (h : r.test_result.syntax_ok = false ∨ r.test_result.compilation_ok = false
      ∨ r.test_result.execution_ok = false) :
    evaluateAgainstCriteria r c = false := by
  unfold evaluateAgainstCriteria
  split_ifs with h1 h2 h3 h4 h5 h6
  any_goals rfl
  rcases h with h | h | h
  exacts [absurd h6.1 (by simp [h]), absurd h6.2.1 (by simp [h]),
    absurd h6.2.2 (by simp [h])]

/-- The stored `passed_criteria` field is the verdict of
`evaluate_against_criteria` on the assembled result. -/
theorem evaluateCodeComprehensive_passed (t : TestResult) (perf : PerformanceMetrics)
    (q : QualityMetrics) (c : EvaluationCriteria) :
    (evaluateCodeComprehensive t perf q c).passed_criteria
      = evaluateAgainstCriteria (evaluateCodeComprehensive t perf q c) c := rfl

/-- C5: the correctness score is 33.33 for passing syntax, 33.33 for passing
compilation and 33.34 for passing execution (weighted so all three sum to
exactly 100); with all three stages failed the correctness score is 0 and
`passed_criteria` is false regardless of the performance and quality
inputs. -/
theorem correctness_score_per_stage (t : TestResult) (perf : PerformanceMetrics)
    (q : QualityMetrics) (criteria : EvaluationCriteria) :
    ((evaluateCodeComprehensive t perf q criteria).correctness_score
        = (if t.syntax_ok then (3333 : ℚ) / 100 else 0)
          + (if t.compilation_ok then (3333 : ℚ) / 100 else 0)
          + (if t.execution_ok then (3334 : ℚ) / 100 else 0))
      ∧ (t.syntax_ok = true → t.compilation_ok = true → t.execution_ok = true →
          (evaluateCodeComprehensive t perf q criteria).correctness_score = 100)
      ∧ (t.syntax_ok = false → t.compilation_ok = false → t.execution_ok = false →
          (evaluateCodeComprehensive t perf q criteria).correctness_score = 0
            ∧ (evaluateCodeComprehensive t perf q criteria).passed_criteria = false) := by
  refine ⟨rfl, fun hs hc he => ?_, fun hs hc he => ⟨?_, ?_⟩⟩
  · show correctnessScore t = 100
    simp [correctnessScore, hs, hc, he]
    norm_num
  · show correctnessScore t = 0
    simp [correctnessScore, hs, hc, he]
  · rw [evaluateCodeComprehensive_passed]
    exact evaluateAgainstCriteria_false_of_stage _ criteria (Or.inl hs)

/-- A step from an exited state does nothing. -/
theorem loopStep_of_exited (cfg : Nat) (oracle : Nat → PassOutcome) (s : LoopState)
    (hs : s.exited = true) : loopStep cfg oracle s = s := by
  unfold loopStep
  simp [hs]

/-- Each pass either leaves `total_iterations` unchanged (an exit pass) or
increments it, and it increments only below the `iterations × 3` cap; a pass
that does not exit always increments. -/
theorem loopStep_total_cases (cfg : Nat) (oracle : Nat → PassOutcome) (s : LoopState) :
    ((loopStep cfg oracle s).total = s.total ∧ (loopStep cfg oracle s).exited = true)
      ∨ ((loopStep cfg oracle s).total = s.total + 1 ∧ s.total < cfg * 3
          ∧ s.exited = false) := by
  by_cases h0 : s.exited = true
  · exact .inl ⟨by rw [loopStep_of_exited cfg oracle s h0], by rw [loopStep_of_exited cfg oracle s h0]; exact h0⟩
  · have h0' : s.exited = false := by simpa using h0
    by_cases h1 : (s.iteration < cfg ∨ hasCodeErrors s.last)
    · by_cases h2 : cfg * 3 ≤ s.total
      · left
        unfold loopStep
        simp [h0', h1, h2]
      · right
        refine ⟨?_, by omega, h0'⟩
        unfold loopStep
        rw [if_neg (show ¬ (s.exited = true) by simp [h0']), if_neg (not_not_intro h1),
          if_neg h2]
        dsimp only
        split_ifs <;> rfl
    · left
      unfold loopStep
      simp [h0', h1]

/-- A pass that leaves the loop still running has incremented
`total_iterations`. -/
theorem loopStep_total_of_not_exited (cfg : Nat) (oracle : Nat → PassOutcome) (s : LoopState)
    (h : (loopStep cfg oracle s).exited = false) :
    (loopStep cfg oracle s).total = s.total + 1 ∧ s.total < cfg * 3 := by
  rcases loopStep_total_cases cfg oracle s with ⟨_, hx⟩ | ⟨ht, hc, _⟩
  · rw [hx] at h
    cases h
  · exact ⟨ht, hc⟩

/-- A running state at or beyond the `iterations × 3` cap exits. -/
theorem loopStep_exits_at_cap (cfg : Nat) (oracle : Nat → PassOutcome) (s : LoopState)
    (h0 : s.exited = false) (h2 : cfg * 3 ≤ s.total) :
    (loopStep cfg oracle s).exited = true := by
  unfold loopStep
  by_cases h1 : (s.iteration < cfg ∨ hasCodeErrors s.last) <;> simp [h0, h1, h2]

/-- C3: for every configuration and every sequence of pass outcomes
(including a test result whose failing flags never clear),
`total_iterations` never exceeds `iterations × 3`, the loop has exited by
pass `iterations × 3 + 1`, and a running state whose index has reached the
configured count with no failing stage in the last test result exits without
executing another pass. -/
theorem loop_iterations_bounded (cfg : Nat) (oracle : Nat → PassOutcome) :
    (∀ k, (loopRun cfg oracle k).total ≤ cfg * 3)
      ∧ (loopRun cfg oracle (cfg * 3 + 1)).exited = true
      ∧ (∀ s : LoopState, s.exited = false → cfg ≤ s.iteration →
          hasCodeErrors s.last = false →
          (loopStep cfg oracle s).exited = true ∧ (loopStep cfg oracle s).total = s.total) := by
  have hbound : ∀ k, (loopRun cfg oracle k).total ≤ cfg * 3 := by
    intro k
    induction k with
    | zero => simp [loopRun, initialLoopState]
    | succ n ih =>
      show (loopStep cfg oracle (loopRun cfg oracle n)).total ≤ cfg * 3
      rcases loopStep_total_cases cfg oracle (loopRun cfg oracle n) with ⟨ht, _⟩ | ⟨ht, hc, _⟩
      · omega
      · omega
  have htotal : ∀ k, (loopRun cfg oracle k).exited = false →
      (loopRun cfg oracle k).total = k := by
    intro k
    induction k with
    | zero => intro _; rfl
    | succ n ih =>
      intro hne
      have hne' : (loopStep cfg oracle (loopRun cfg oracle n)).exited = false := hne
      obtain ⟨ht, _⟩ := loopStep_total_of_not_exited cfg oracle _ hne'
      have hprev : (loopRun cfg oracle n).exited = false := by
        by_contra hx
        have hx' : (loopRun cfg oracle n).exited = true := by simpa using hx
        rw [loopStep_of_exited cfg oracle _ hx'] at hne'
        rw [hx'] at hne'
        cases hne'
      show (loopStep cfg oracle (loopRun cfg oracle n)).total = n + 1
      rw [ht, ih hprev]
  refine ⟨hbound, ?_, ?_⟩
  · by_cases hx : (loopRun cfg oracle (cfg * 3)).exited = true
    · show (loopStep cfg oracle (loopRun cfg oracle (cfg * 3))).exited = true
      rw [loopStep_of_exited cfg oracle _ hx]
      exact hx
    · have hxe : (loopRun cfg oracle (cfg * 3)).exited = false := by simpa using hx
      have ht := htotal _ hxe
      exact loopStep_exits_at_cap cfg oracle _ hxe (by omega)
  · intro s hse hsi hsl
    have hcond : ¬ (s.iteration < cfg ∨ hasCodeErrors s.last) := by
      rw [hsl]
      simp
      omega
    constructor
    · unfold loopStep
      simp [hse, hcond]
    · unfold loopStep
      simp [hse, hcond]

/-- Witness for C5 at concrete inputs. -/
theorem correctness_score_per_stage_witness :
    (evaluateCodeComprehensive passingTestResult zeroPerformance zeroQuality
        defaultCriteria).correctness_score = 100
      ∧ (evaluateCodeComprehensive initialTestResult zeroPerformance zeroQuality
          defaultCriteria).correctness_score = 0
      ∧ (evaluateCodeComprehensive initialTestResult zeroPerformance zeroQuality
          defaultCriteria).passed_criteria = false :=
  ⟨(correctness_score_per_stage passingTestResult zeroPerformance zeroQuality
      defaultCriteria).2.1 rfl rfl rfl,
   ((correctness_score_per_stage initialTestResult zeroPerformance zeroQuality
      defaultCriteria).2.2 rfl rfl rfl).1,
   ((correctness_score_per_stage initialTestResult zeroPerformance zeroQuality
      defaultCriteria).2.2 rfl rfl rfl).2⟩

/-- Witness for C3 at a concrete configuration, an oracle whose failures
never clear, and a concrete clean state. -/
theorem loop_iterations_bounded_witness :
    (loopRun 1 failingOracle 2).total ≤ 1 * 3
      ∧ (loopRun 1 failingOracle (1 * 3 + 1)).exited = true
      ∧ (loopStep 1 failingOracle cleanLoopState).exited = true := by
  obtain ⟨h1, h2, h3⟩ := loop_iterations_bounded 1 failingOracle
  exact ⟨h1 2, h2, (h3 cleanLoopState rfl (by decide) (by decide)).1⟩

/-- C6 counterexample: a nonzero exit whose output contains `"cannot find"`
but none of the claim's three compile-error patterns and no crash pattern is
still classified with all three flags false — the claim predicts
syntax/compile true with a generic message for such output. -/
theorem run_custom_test_cannot_find_counterexample :
    containsSeq "error:".data "cannot find -lfoo".data = false
      ∧ containsSeq "undefined reference".data "cannot find -lfoo".data = false
      ∧ containsSeq "fatal error".data "cannot find -lfoo".data = false
      ∧ crashPattern "cannot find -lfoo".data = false
      ∧ (runCustomTestClassify 1 "cannot find -lfoo".data).syntax_ok = false
      ∧ (runCustomTestClassify 1 "cannot find -lfoo".data).compilation_ok = false
      ∧ (runCustomTestClassify 1 "cannot find -lfoo".data).execution_ok = false := by
  decide

/-- C6 (amended): exit code 0 gives all three flags true with an empty error
message; a nonzero exit with a compile-error pattern — `"error:"`,
`"undefined reference"`, `"fatal error"` or `"cannot find"` — gives all
three flags false; otherwise a crash pattern gives syntax/compile true and
execution false with a runtime-error message; any other nonzero exit gives
syntax/compile true, execution false, with a generic exit-code message.
Compile-error patterns take precedence over crash patterns. -/
theorem run_custom_test_classification (ec : Nat) (out : Chars) :
    (ec = 0 → runCustomTestClassify ec out
        = { syntax_ok := true, compilation_ok := true, execution_ok := true,
            error_message := [], output := out })
      ∧ (ec ≠ 0 → compileErrorPattern out = true → runCustomTestClassify ec out
          = { syntax_ok := false, compilation_ok := false, execution_ok := false,
              error_message := "Compilation failed: ".data ++ out, output := out })
      ∧ (ec ≠ 0 → compileErrorPattern out = false → crashPattern out = true →
          runCustomTestClassify ec out
          = { syntax_ok := true, compilation_ok := true, execution_ok := false,
              error_message := "Runtime error: ".data ++ out, output := out })
      ∧ (ec ≠ 0 → compileErrorPattern out = false → crashPattern out = false →
          runCustomTestClassify ec out
          = { syntax_ok := true, compilation_ok := true, execution_ok := false,
              error_message := ("Test failed (exit code " ++ toString ec ++ "): ").data
                ++ out, output := out }) := by
  unfold compileErrorPattern crashPattern
  refine ⟨fun h => by simp [runCustomTestClassify, h], fun h hp => ?_, fun h hp hc => ?_,
    fun h hp hc => ?_⟩
  · unfold runCustomTestClassify
    rw [if_neg h, if_pos hp]
  · unfold runCustomTestClassify
    rw [if_neg h, if_neg (by simp [hp]), if_pos hc]
  · unfold runCustomTestClassify
    rw [if_neg h, if_neg (by simp [hp]), if_neg (by simp [hc])]

/-- Witness for C6 at concrete exit codes and outputs. -/
theorem run_custom_test_classification_witness :
    runCustomTestClassify 0 "all tests passed".data
        = { syntax_ok := true, compilation_ok := true, execution_ok := true,
            error_message := [], output := "all tests passed".data }
      ∧ runCustomTestClassify 1 "x.c:3: error: oops".data
          = { syntax_ok := false, compilation_ok := false, execution_ok := false,
              error_message := "Compilation failed: ".data ++ "x.c:3: error: oops".data,
              output := "x.c:3: error: oops".data }
      ∧ runCustomTestClassify 1 "core dumped".data
          = { syntax_ok := true, compilation_ok := true, execution_ok := false,
              error_message := "Runtime error: ".data ++ "core dumped".data,
              output := "core dumped".data }
      ∧ runCustomTestClassify 7 "wrong answer".data
          = { syntax_ok := true, compilation_ok := true, execution_ok := false,
              error_message := ("Test failed (exit code " ++ toString 7 ++ "): ").data
                ++ "wrong answer".data, output := "wrong answer".data } :=
  ⟨(run_custom_test_classification 0 "all tests passed".data).1 rfl,
   (run_custom_test_classification 1 "x.c:3: error: oops".data).2.1 (by decide) (by decide),
   (run_custom_test_classification 1 "core dumped".data).2.2.1 (by decide) (by decide)
     (by decide),
   (run_custom_test_classification 7 "wrong answer".data).2.2.2 (by decide) (by decide)
     (by decide)⟩

/-- C7 counterexample: a source repeating the explicit description `alpha`
parses into two regions with the same description — the uniqueness invariant
does not hold after `parse_evolution_regions`. -/
theorem parse_duplicate_descriptions_counterexample :
    (parseEvolutionRegions duplicateDescSource).regions.map (·.description)
        = ["alpha".data, "alpha".data]
      ∧ ¬ ((parseEvolutionRegions duplicateDescSource).regions.map (·.description)).Nodup := by
  decide

/-- `update_evolution_region` with a matching description rewrites content
and generation in place, keeping every description. -/
theorem updateGo_some_map_desc (d c : Chars) :
    ∀ rs rs', updateGo d c rs = some rs' →
      rs'.map (·.description) = rs.map (·.description) := by
  intro rs
  induction rs with
  | nil => intro rs' h; cases h
  | cons r t ih =>
    intro rs' h
    unfold updateGo at h
    by_cases hd : r.description = d
    · rw [if_pos hd] at h
      cases h
      simp
    · rw [if_neg hd] at h
      cases ht : updateGo d c t with
      | none => rw [ht] at h; cases h
      | some t' =>
        rw [ht] at h
        cases h
        simp [ih t' ht]

/-- `update_evolution_region` falls through to the append branch exactly when
no region carries the description. -/
theorem updateGo_none_iff (d c : Chars) :
    ∀ rs, updateGo d c rs = none ↔ d ∉ rs.map (·.description) := by
  intro rs
  induction rs with
  | nil => simp [updateGo]
  | cons r t ih =>
    unfold updateGo
    by_cases hd : r.description = d
    · rw [if_pos hd]
      simp [hd]
    · rw [if_neg hd]
      cases ht : updateGo d c t with
      | none =>
        simp only [Option.map_none, true_iff, List.map_cons, List.mem_cons]
        push_neg
        exact ⟨fun _ => ⟨fun hc => hd hc.symm, (ih.mp ht)⟩, fun _ => rfl⟩
      | some t' =>
        simp only [Option.map_some, List.map_cons, List.mem_cons]
        constructor
        · intro hc; cases hc
        · intro hc
          exact absurd (ih.mpr fun hm => hc (Or.inr hm)) (by simp [ht])

/-- C7 (amended): `update_evolution_region` never creates a duplicate: with a
known description it rewrites that region in place, leaving the description
list unchanged, and for descriptions short enough for the 256-byte buffer it
preserves uniqueness of descriptions. `parse_evolution_regions`, however,
does not enforce the invariant (see the counterexample). -/
theorem update_preserves_unique_descriptions (ev : CodeEvolution) (d c : Chars)
    (hd : d.length ≤ maxDescriptionLen) :
    (((ev.regions.map (·.description)).Nodup →
        ((updateEvolutionRegion ev d c).regions.map (·.description)).Nodup))
      ∧ (d ∈ ev.regions.map (·.description) →
          (updateEvolutionRegion ev d c).regions.map (·.description)
            = ev.regions.map (·.description)) := by
  have htake : d.take maxDescriptionLen = d := List.take_of_length_le hd
  constructor
  · intro hnd
    unfold updateEvolutionRegion
    cases hu : updateGo d c ev.regions with
    | some rs' => simpa [updateGo_some_map_desc d c ev.regions rs' hu] using hnd
    | none =>
      have hmem : d ∉ ev.regions.map (·.description) := (updateGo_none_iff d c _).mp hu
      by_cases hlen : ev.regions.length < maxEvolutionRegions
      · rw [if_pos hlen]
        simp only [List.map_append, List.map_cons, List.map_nil]
        rw [List.nodup_append]
        refine ⟨hnd, by simp [htake], ?_⟩
        intro x hx
        simp only [htake, List.mem_cons, List.not_mem_nil, or_false]
        intro hxd
        exact hmem (hxd ▸ hx)
      · rw [if_neg hlen]
        exact hnd
  · intro hmem
    unfold updateEvolutionRegion
    cases hu : updateGo d c ev.regions with
    | some rs' => exact updateGo_some_map_desc d c ev.regions rs' hu
    | none => exact absurd hmem ((updateGo_none_iff d c _).mp hu)

/-- Witness for C7 at a concrete context. -/
theorem update_preserves_unique_descriptions_witness :
    ((updateEvolutionRegion smallContext "alpha".data "new".data).regions.map
        (·.description)).Nodup
      ∧ (updateEvolutionRegion smallContext "alpha".data "new".data).regions.map
          (·.description) = smallContext.regions.map (·.description) := by
  have h := update_preserves_unique_descriptions smallContext "alpha".data "new".data
    (by decide)
  exact ⟨h.1 (by decide), h.2 (by decide)⟩

/-- C8 counterexample: with the region array already at
`MAX_EVOLUTION_REGIONS`, an update with an unknown description appends
nothing — the context is returned unchanged, against the claim's
unconditional append. -/
theorem update_full_context_counterexample :
    fullContext.regions.length = maxEvolutionRegions
      ∧ lookupRegion fullContext "new".data = none
      ∧ updateEvolutionRegion fullContext "new".data "content".data = fullContext := by
  decide

/-- On a found description, `update_evolution_region` rewrites exactly the
first matching slot, and the lookup afterwards sees the new content. -/
theorem updateGo_of_find_some (d c : Chars) :
    ∀ (rs : List EvoRegion) (r₀ : EvoRegion),
      rs.find? (fun r => r.description == d) = some r₀ →
      ∃ i, rs.get? i = some r₀
        ∧ updateGo d c rs
            = some (rs.set i { r₀ with content := c, generation := r₀.generation + 1 })
        ∧ (rs.set i { r₀ with content := c, generation := r₀.generation + 1 }).find?
            (fun r => r.description == d)
            = some { r₀ with content := c, generation := r₀.generation + 1 } := by
  intro rs
  induction rs with
  | nil => intro r₀ h; cases h
  | cons r t ih =>
    intro r₀ h
    by_cases hd : r.description = d
    · rw [List.find?_cons_of_pos _ (by simpa using hd)] at h
      cases h
      refine ⟨0, rfl, ?_, ?_⟩
      · unfold updateGo
        rw [if_pos hd]
        rfl
      · exact List.find?_cons_of_pos _ (by simpa using hd)
    · rw [List.find?_cons_of_neg _ (by simpa using hd)] at h
      obtain ⟨i, hget, hupd, hfind⟩ := ih r₀ h
      refine ⟨i + 1, by simpa using hget, ?_, ?_⟩
      · unfold updateGo
        rw [if_neg hd, hupd]
        rfl
      · show List.find? _ (r :: t.set i _) = _
        rw [List.find?_cons_of_neg _ (by simpa using hd), hfind]

/-- The fall-through to the append branch happens exactly when the lookup
fails. -/
theorem updateGo_of_find_none (d c : Chars) :
    ∀ rs : List EvoRegion, rs.find? (fun r => r.description == d) = none →
      updateGo d c rs = none := by
  intro rs
  induction rs with
  | nil => intro _; rfl
  | cons r t ih =>
    intro h
    by_cases hd : r.description = d
    · rw [List.find?_cons_of_pos _ (by simpa using hd)] at h
      cases h
    · rw [List.find?_cons_of_neg _ (by simpa using hd)] at h
      unfold updateGo
      rw [if_neg hd, ih h]
      rfl

/-- C8 (amended): updating a known description replaces exactly that (first
matching) region's content — a subsequent lookup by the description returns
the content passed in — and increments its generation by exactly 1, leaving
every other slot unchanged (`List.set` at the matched index); an unknown
description appends a fresh region with generation 1 only while the region
array holds fewer than `MAX_EVOLUTION_REGIONS` entries, and otherwise the
update is silently dropped. -/
theorem update_region_content_generation (ev : CodeEvolution) (d c : Chars) :
    (∀ r₀, lookupRegion ev d = some r₀ →
        ∃ i, ev.regions.get? i = some r₀
          ∧ (updateEvolutionRegion ev d c).regions
              = ev.regions.set i { r₀ with content := c, generation := r₀.generation + 1 }
          ∧ lookupRegion (updateEvolutionRegion ev d c) d
              = some { r₀ with content := c, generation := r₀.generation + 1 })
      ∧ (lookupRegion ev d = none → ev.regions.length < maxEvolutionRegions →
          (updateEvolutionRegion ev d c).regions
            = ev.regions ++ [⟨d.take maxDescriptionLen, c, 0, 0, 1, 0⟩])
      ∧ (lookupRegion ev d = none → maxEvolutionRegions ≤ ev.regions.length →
          updateEvolutionRegion ev d c = ev) := by
  refine ⟨fun r₀ h => ?_, fun h hlen => ?_, fun h hlen => ?_⟩
  · obtain ⟨i, hget, hupd, hfind⟩ := updateGo_of_find_some d c ev.regions r₀ h
    refine ⟨i, hget, ?_, ?_⟩
    · unfold updateEvolutionRegion
      rw [hupd]
    · unfold lookupRegion updateEvolutionRegion
      rw [hupd]
      exact hfind
  · unfold updateEvolutionRegion
    rw [updateGo_of_find_none d c ev.regions h, if_pos hlen]
  · unfold updateEvolutionRegion
    rw [updateGo_of_find_none d c ev.regions h, if_neg (by omega)]

/-- Witness for C8 at a concrete two-region context. -/
theorem update_region_content_generation_witness :
    lookupRegion (updateEvolutionRegion smallContext "alpha".data "fresh".data) "alpha".data
        = some ⟨"alpha".data, "fresh".data, 1, 3, 5, 0⟩
      ∧ (updateEvolutionRegion fullContext "zz".data "x".data) = fullContext := by
  obtain ⟨i, hget, hset, hlook⟩ :=
    (update_region_content_generation smallContext "alpha".data "fresh".data).1
      ⟨"alpha".data, "old".data, 1, 3, 4, 0⟩ (by decide)
  have h2 := (update_region_content_generation fullContext "zz".data "x".data).2.2
    (by decide) (by decide)
  exact ⟨hlook, h2⟩

/-- `strstr` over the whitespace-trimmed line agrees with `strstr` over the
raw line for any pattern that does not start with a blank. -/
theorem containsSeq_head_not_ws (p : Chars) (c0 : Char) (hp : p.head? = some c0)
    (h1 : c0 ≠ ' ') (h2 : c0 ≠ '\t') :
    ∀ l : Chars, containsSeq p (trimWs l) = containsSeq p l := by
  cases p with
  | nil => cases hp
  | cons x xs =>
    have hx : x = c0 := by simpa using hp
    subst hx
    intro l
    induction l with
    | nil => rfl
    | cons a t ih =>
      unfold trimWs at ih ⊢
      rw [List.dropWhile_cons]
      by_cases ha : (a == ' ' || a == '\t') = true
      · rw [if_pos ha, ih]
        have hca : (x == a) = false := by
          rcases (show a = ' ' ∨ a = '\t' by simpa using ha) with h | h
          · subst h
            exact beq_eq_false_iff_ne.mpr h1
          · subst h
            exact beq_eq_false_iff_ne.mpr h2
        have hpre : (x :: xs).isPrefixOf (a :: t) = false := by
          simp [List.isPrefixOf, hca]
        show containsSeq (x :: xs) t = containsSeq (x :: xs) (a :: t)
        rw [show containsSeq (x :: xs) (a :: t)
            = ((x :: xs).isPrefixOf (a :: t) || containsSeq (x :: xs) t) from rfl,
          hpre, Bool.false_or]
      · rw [if_neg ha]

/-- The start-marker test of the parser (on the trimmed line) agrees with the
raw test used by the assembler. -/
theorem markerStart_trimWs (l : Chars) :
    containsSeq markerStart (trimWs l) = containsSeq markerStart l :=
  containsSeq_head_not_ws markerStart '/' rfl (by decide) (by decide) l

/-- Same for the end marker. -/
theorem markerEnd_trimWs (l : Chars) :
    containsSeq markerEnd (trimWs l) = containsSeq markerEnd l :=
  containsSeq_head_not_ws markerEnd '/' rfl (by decide) (by decide) l

/-- A run of lines none of which closes a region yields no region, whatever
state the scanner is in: an open region is discarded at end of input. -/
theorem parseGo_no_stop_nil :
    ∀ (ls : List Chars) (i k : Nat) (st : Option (Nat × Chars × Chars)),
      (∀ l ∈ ls, isStopLine l = false) → parseGo i k st ls = [] := by
  intro ls
  induction ls with
  | nil => intro i k st _; rfl
  | cons l t ih =>
    intro i k st h
    have hl : isStopLine l = false := h l (.head t)
    have ht : ∀ x ∈ t, isStopLine x = false := fun x hx => h x (.tail l hx)
    unfold parseGo
    by_cases hk : maxEvolutionRegions ≤ k
    · rw [if_pos hk]
    · rw [if_neg hk]
      by_cases hs : containsSeq markerStart (trimWs l) = true
      · rw [if_pos hs]
        cases st <;> exact ih _ _ _ ht
      · by_cases he : containsSeq markerEnd (trimWs l) = true
        · exfalso
          have hs' : containsSeq markerStart l = false := by
            rw [← markerStart_trimWs]
            simpa using hs
          have he' : containsSeq markerEnd l = true := by
            rw [← markerEnd_trimWs]
            exact he
          rw [isStopLine, hs', he'] at hl
          simp at hl
        · rw [if_neg hs, if_neg he]
          cases st <;> exact ih _ _ _ ht

/-- C10 helper: lines after which no end marker ever appears contribute
nothing to the parse — in particular a region opened there is silently
discarded together with its accumulated content. -/
theorem parseGo_append_no_stop (tail : List Chars)
    (htail : ∀ l ∈ tail, isStopLine l = false) :
    ∀ (pre : List Chars) (i k : Nat) (st : Option (Nat × Chars × Chars)),
      parseGo i k st (pre ++ tail) = parseGo i k st pre := by
  intro pre
  induction pre with
  | nil =>
    intro i k st
    simp only [List.nil_append]
    rw [parseGo_no_stop_nil tail i k st htail]
    rfl
  | cons l t ih =>
    intro i k st
    show parseGo i k st (l :: (t ++ tail)) = parseGo i k st (l :: t)
    unfold parseGo
    by_cases hk : maxEvolutionRegions ≤ k
    · rw [if_pos hk, if_pos hk]
    · rw [if_neg hk, if_neg hk]
      by_cases hs : containsSeq markerStart (trimWs l) = true
      · rw [if_pos hs, if_pos hs]
        cases st <;> exact ih _ _ _
      · rw [if_neg hs, if_neg hs]
        by_cases he : containsSeq markerEnd (trimWs l) = true
        · rw [if_pos he, if_pos he]
          cases st with
          | none => exact ih _ _ _
          | some stv =>
            obtain ⟨s, dsc, acc⟩ := stv
            exact congrArg _ (ih _ _ _)
        · rw [if_neg he, if_neg he]
          cases st <;> exact ih _ _ _

/-- C10: whenever no line from token position `n` onward closes a region,
everything from position `n` onward — including any region opened there that
is never closed, and its accumulated content — is absent from the parse:
the result (and hence the region count) equals the parse of the first `n`
token lines alone. -/
theorem parse_discards_unclosed_region (code : Chars) (n : Nat)
    (hmark : containsSeq markerStart code = true)
    (htail : ∀ l ∈ ((splitTok code).take 4095).drop n, isStopLine l = false) :
    (parseEvolutionRegions code).regions
        = parseGo 0 0 none (((splitTok code).take 4095).take n)
      ∧ (parseEvolutionRegions code).regions.length
          = (parseGo 0 0 none (((splitTok code).take 4095).take n)).length := by
  have h1 : (parseEvolutionRegions code).regions
      = parseGo 0 0 none ((splitTok code).take 4095) := by
    unfold parseEvolutionRegions
    rw [if_pos hmark]
  have h2 : parseGo 0 0 none ((splitTok code).take 4095)
      = parseGo 0 0 none (((splitTok code).take 4095).take n) := by
    conv_lhs => rw [← List.take_append_drop n ((splitTok code).take 4095)]
    exact parseGo_append_no_stop _ htail _ 0 0 none
  exact ⟨h1.trans h2, by rw [h1, h2]⟩

/-- Witness for C10: a source whose only region never closes parses to zero
regions. -/
theorem parse_discards_unclosed_region_witness :
    (parseEvolutionRegions unclosedSource).regions = [] := by
  have h := parse_discards_unclosed_region unclosedSource 0 (by decide) (by decide)
  simpa using h.1

/-! ### `strstr` lemmas for the code-block extraction claims -/

/-- Unfolding `strstrIdx` on a cons. -/
theorem strstrIdx_cons (p : Chars) (c : Char) (s : Chars) :
    strstrIdx p (c :: s)
      = if p.isPrefixOf (c :: s) then some 0 else (strstrIdx p s).map (· + 1) := rfl

/-- A pattern found at the very front. -/
theorem strstrIdx_of_prefix {p s : Chars} (h : p.isPrefixOf s = true) :
    strstrIdx p s = some 0 := by
  cases s with
  | nil => unfold strstrIdx; rw [if_pos h]
  | cons c t => rw [strstrIdx_cons, if_pos h]

/-- `strstr` skips a block that does not contain the pattern's first
character. -/
theorem strstrIdx_append_not_mem (c0 : Char) (p' : Chars) :
    ∀ (a b : Chars), c0 ∉ a →
      strstrIdx (c0 :: p') (a ++ b) = (strstrIdx (c0 :: p') b).map (· + a.length) := by
  intro a
  induction a with
  | nil =>
    intro b _
    cases h : strstrIdx (c0 :: p') b <;> simp [h]
  | cons y ys ih =>
    intro b ha
    have hy : ¬ (c0 :: p').isPrefixOf (y :: (ys ++ b)) = true := by
      have : (c0 == y) = false := beq_eq_false_iff_ne.mpr fun h => ha (h ▸ .head ys)
      simp [List.isPrefixOf, this]
    rw [List.cons_append, strstrIdx_cons, if_neg hy,
      ih b (fun hm => ha (.tail y hm))]
    cases h : strstrIdx (c0 :: p') b <;> simp [h]
    omega

/-- No occurrence at all without the pattern's first character. -/
theorem strstrIdx_none_not_mem (c0 : Char) (p' : Chars) (s : Chars) (h : c0 ∉ s) :
    strstrIdx (c0 :: p') s = none := by
  have := strstrIdx_append_not_mem c0 p' s [] h
  simp only [List.append_nil] at this
  rw [this]
  rfl

/-- `strstr`-containment agrees with index search. -/
theorem containsSeq_eq_isSome (p : Chars) :
    ∀ s : Chars, containsSeq p s = (strstrIdx p s).isSome := by
  intro s
  induction s with
  | nil =>
    unfold containsSeq strstrIdx
    by_cases h : p.isPrefixOf [] = true <;> simp [h]
  | cons c t ih =>
    unfold containsSeq
    rw [strstrIdx_cons]
    by_cases h : p.isPrefixOf (c :: t) = true <;> simp [h, ih]

/-- An occurrence of a longer pattern gives an occurrence of any prefix of
it. -/
theorem containsSeq_of_pattern_leading (p₁ p₂ : Chars) (hp : p₁.isPrefixOf p₂ = true) :
    ∀ s : Chars, containsSeq p₂ s = true → containsSeq p₁ s = true := by
  intro s
  induction s with
  | nil =>
    unfold containsSeq
    intro h
    have h2 : p₂ <+: [] := List.isPrefixOf_iff_prefix.mp h
    exact List.isPrefixOf_iff_prefix.mpr ((List.isPrefixOf_iff_prefix.mp hp).trans h2)
  | cons c t ih =>
    unfold containsSeq
    intro h
    rcases Bool.or_eq_true_iff.mp h with h | h
    · exact Bool.or_eq_true_iff.mpr (.inl (List.isPrefixOf_iff_prefix.mpr
        ((List.isPrefixOf_iff_prefix.mp hp).trans (List.isPrefixOf_iff_prefix.mp h))))
    · exact Bool.or_eq_true_iff.mpr (.inr (ih h))

/-- Not containing the untagged fence means not containing the tagged one
either, and the index searches both fail. -/
theorem fence_idx_none_of_no_fence {r : Chars} (h : containsSeq "```".data r = false) :
    strstrIdx "```".data r = none ∧ strstrIdx "```c".data r = none := by
  have h1 : strstrIdx "```".data r = none := by
    have := containsSeq_eq_isSome "```".data r
    rw [h] at this
    exact Option.not_isSome_iff_eq_none.mp (by simp [← this])
  have h2 : containsSeq "```c".data r = false := by
    by_contra hc
    have hc' : containsSeq "```c".data r = true := by simpa using hc
    rw [containsSeq_of_pattern_leading "```".data "```c".data rfl r hc'] at h
    cases h
  have h3 : strstrIdx "```c".data r = none := by
    have := containsSeq_eq_isSome "```c".data r
    rw [h2] at this
    exact Option.not_isSome_iff_eq_none.mp (by simp [← this])
  exact ⟨h1, h3⟩

/-- Stepping `strstrIdx` past a non-matching head. -/
theorem strstrIdx_cons_neg {p : Chars} {c : Char} {s : Chars}
    (h : p.isPrefixOf (c :: s) = false) :
    strstrIdx p (c :: s) = (strstrIdx p s).map (· + 1) := by
  rw [strstrIdx_cons, if_neg (by simp [h])]

/-- The first newline of a tagged fence line sits at index 4. -/
theorem strstrIdx_newline_fenceC (w : Chars) :
    strstrIdx ['\n'] ("```c\n".data ++ w) = some 4 := by
  show strstrIdx ['\n'] ('`' :: '`' :: '`' :: 'c' :: '\n' :: w) = some 4
  rw [strstrIdx_cons_neg (by simp [List.isPrefixOf]),
    strstrIdx_cons_neg (by simp [List.isPrefixOf]),
    strstrIdx_cons_neg (by simp [List.isPrefixOf]),
    strstrIdx_cons_neg (by simp [List.isPrefixOf]),
    strstrIdx_of_prefix (by simp [List.isPrefixOf] : (['\n'] : Chars).isPrefixOf ('\n' :: w) = true)]
  try rfl

/-- The first newline of an untagged fence line sits at index 3. -/
theorem strstrIdx_newline_fence (w : Chars) :
    strstrIdx ['\n'] ("```\n".data ++ w) = some 3 := by
  show strstrIdx ['\n'] ('`' :: '`' :: '`' :: '\n' :: w) = some 3
  rw [strstrIdx_cons_neg (by simp [List.isPrefixOf]),
    strstrIdx_cons_neg (by simp [List.isPrefixOf]),
    strstrIdx_cons_neg (by simp [List.isPrefixOf]),
    strstrIdx_of_prefix (by simp [List.isPrefixOf] : (['\n'] : Chars).isPrefixOf ('\n' :: w) = true)]
  try rfl

/-- The tagged-fence search steps over an untagged fence line. -/
theorem strstrIdx_fenceC_skip_fence_nl (w : Chars) :
    strstrIdx "```c".data ("```\n".data ++ w)
      = (strstrIdx "```c".data w).map (· + 4) := by
  show strstrIdx "```c".data ('`' :: '`' :: '`' :: '\n' :: w) = _
  rw [strstrIdx_cons_neg (by simp [List.isPrefixOf]),
    strstrIdx_cons_neg (by simp [List.isPrefixOf]),
    strstrIdx_cons_neg (by simp [List.isPrefixOf]),
    strstrIdx_cons_neg (by simp [List.isPrefixOf])]
  cases h : strstrIdx "```c".data w with
  | none => simp [h]
  | some a =>
    simp [h]
    try omega

/-- The tagged-fence search steps over a closing fence followed by text that
does not begin with `c` and is backtick-free, landing on the true tagged
fence behind it. -/
theorem strstrIdx_fenceC_skip_close (mid z : Chars) (hm : '`' ∉ mid)
    (hh : mid.head? ≠ some 'c') :
    strstrIdx "```c".data ('`' :: '`' :: '`' :: (mid ++ ("```c\n".data ++ z)))
      = some (mid.length + 3) := by
  have h1 : ("```c".data).isPrefixOf ('`' :: '`' :: '`' :: (mid ++ ("```c\n".data ++ z)))
      = false := by
    cases mid with
    | nil => simp [List.isPrefixOf]
    | cons m ms =>
      have hcm : ('c' == m) = false :=
        beq_eq_false_iff_ne.mpr fun hcm => hh (by rw [← hcm]; rfl)
      simp [List.isPrefixOf, hcm]
  have h2 : ("```c".data).isPrefixOf ('`' :: '`' :: (mid ++ ("```c\n".data ++ z)))
      = false := by
    cases mid with
    | nil => simp [List.isPrefixOf]
    | cons m ms =>
      have hbm : ('`' == m) = false :=
        beq_eq_false_iff_ne.mpr fun hbm => hm (hbm ▸ .head ms)
      simp [List.isPrefixOf, hbm]
  have h3 : ("```c".data).isPrefixOf ('`' :: (mid ++ ("```c\n".data ++ z))) = false := by
    cases mid with
    | nil => simp [List.isPrefixOf]
    | cons m ms =>
      have hbm : ('`' == m) = false :=
        beq_eq_false_iff_ne.mpr fun hbm => hm (hbm ▸ .head ms)
      simp [List.isPrefixOf, hbm]
  rw [strstrIdx_cons_neg h1, strstrIdx_cons_neg h2, strstrIdx_cons_neg h3,
    strstrIdx_append_not_mem '`' _ mid _ hm,
    strstrIdx_of_prefix (by simp [List.isPrefixOf] :
      ("```c".data).isPrefixOf ("```c\n".data ++ z) = true)]
  simp
  try omega

/-- C9: code-block extraction. With no fence in the response,
`validate_and_clean_response` wraps the whole response in a synthesized
tagged block behind an explanatory prefix; with a fence that never closes it
appends a closing fence; with a closed block it returns the response
unchanged. `update_solution_with_testing` extracts the body of the block at
the first tagged fence — ignoring any further blocks — prefers a tagged
fence over an earlier untagged block, and falls back to the first untagged
fence when no tagged fence exists. -/
theorem code_block_extraction_contract :
    (∀ r : Chars, containsSeq "```".data r = false →
        validateAndCleanResponse r
          = "Analysis: Attempting to fix the code.\n\n```c\n".data ++ r ++ "\n```".data)
      ∧ (∀ pre body : Chars, '`' ∉ pre → '`' ∉ body →
          validateAndCleanResponse (pre ++ ("```c\n".data ++ body))
            = (pre ++ ("```c\n".data ++ body)) ++ "\n```".data)
      ∧ (∀ pre body post : Chars, '`' ∉ pre → '`' ∉ body →
          validateAndCleanResponse (pre ++ ("```c\n".data ++ (body ++ ("```".data ++ post))))
            = pre ++ ("```c\n".data ++ (body ++ ("```".data ++ post))))
      ∧ (∀ (maxCode : Nat) (pre body post : Chars), '`' ∉ pre → '`' ∉ body →
          body.length + 1 < maxCode →
          extractSolutionCode maxCode
              (pre ++ ("```c\n".data ++ (body ++ ("```".data ++ post))))
            = some (rtrimSolution body))
      ∧ (∀ (maxCode : Nat) (pre body post : Chars), '`' ∉ pre → '`' ∉ body →
          containsSeq "```c".data (pre ++ ("```\n".data ++ (body ++ ("```".data ++ post))))
            = false →
          body.length + 1 < maxCode →
          extractSolutionCode maxCode
              (pre ++ ("```\n".data ++ (body ++ ("```".data ++ post))))
            = some (rtrimSolution body))
      ∧ (∀ (maxCode : Nat) (u mid body post : Chars), '`' ∉ u → '`' ∉ mid → '`' ∉ body →
          mid.head? ≠ some 'c' → body.length + 1 < maxCode →
          extractSolutionCode maxCode
              ("```\n".data ++ (u ++ ("```".data ++ (mid ++ ("```c\n".data
                ++ (body ++ ("```".data ++ post)))))))
            = some (rtrimSolution body)) := by
  have hmap_some : ∀ (o : Option Nat) (a k : Nat), o = some a → o.map (· + k) = some (a + k) :=
    fun o a k h => by rw [h]; rfl
  refine ⟨fun r hnf => ?_, fun pre body hp hb => ?_, fun pre body post hp hb => ?_,
    fun maxCode pre body post hp hb hcap => ?_, fun maxCode pre body post hp hb hnc hcap => ?_,
    fun maxCode u mid body post hu hm hb hh hcap => ?_⟩
  · obtain ⟨h1, h2⟩ := fence_idx_none_of_no_fence hnf
    unfold validateAndCleanResponse
    rw [h2]
    show (match strstrIdx "```".data r with
      | none => _ | some idx => _) = _
    rw [h1]
  · have hidx : strstrIdx "```c".data (pre ++ ("```c\n".data ++ body)) = some pre.length := by
      rw [strstrIdx_append_not_mem '`' _ pre _ hp,
        strstrIdx_of_prefix (by simp [List.isPrefixOf] :
          ("```c".data).isPrefixOf ("```c\n".data ++ body) = true)]
      simp
    unfold validateAndCleanResponse
    rw [hidx]
    show (match strstrIdx "```".data
        ((pre ++ ("```c\n".data ++ body)).drop (pre.length + 3)) with
      | none => _ | some idx => _) = _
    rw [List.drop_append 3]
    rw [show ("```c\n".data ++ body).drop 3 = 'c' :: '\n' :: body from rfl]
    rw [strstrIdx_none_not_mem '`' _ ('c' :: '\n' :: body) (by simp [hb])]
  · have hidx : strstrIdx "```c".data
        (pre ++ ("```c\n".data ++ (body ++ ("```".data ++ post)))) = some pre.length := by
      rw [strstrIdx_append_not_mem '`' _ pre _ hp,
        strstrIdx_of_prefix (by simp [List.isPrefixOf] :
          ("```c".data).isPrefixOf ("```c\n".data ++ (body ++ ("```".data ++ post))) = true)]
      simp
    unfold validateAndCleanResponse
    rw [hidx]
    show (match strstrIdx "```".data
        ((pre ++ ("```c\n".data ++ (body ++ ("```".data ++ post)))).drop (pre.length + 3)) with
      | none => _ | some idx => _) = _
    rw [List.drop_append 3]
    rw [show ("```c\n".data ++ (body ++ ("```".data ++ post))).drop 3
      = ('c' :: '\n' :: body) ++ ("```".data ++ post) from rfl]
    rw [strstrIdx_append_not_mem '`' _ ('c' :: '\n' :: body) _ (by simp [hb]),
      strstrIdx_of_prefix (by simp [List.isPrefixOf] :
        ("```".data).isPrefixOf ("```".data ++ post) = true)]
    rfl
  · have hidx : strstrIdx "```c".data
        (pre ++ ("```c\n".data ++ (body ++ ("```".data ++ post)))) = some pre.length := by
      rw [strstrIdx_append_not_mem '`' _ pre _ hp,
        strstrIdx_of_prefix (by simp [List.isPrefixOf] :
          ("```c".data).isPrefixOf ("```c\n".data ++ (body ++ ("```".data ++ post))) = true)]
      simp
    unfold extractSolutionCode
    rw [hidx]
    show (match strstrIdx ['\n']
        ((pre ++ ("```c\n".data ++ (body ++ ("```".data ++ post)))).drop pre.length) with
      | none => _ | some nl => _) = _
    rw [List.drop_left, strstrIdx_newline_fenceC]
    show (match strstrIdx "```".data
        (("```c\n".data ++ (body ++ ("```".data ++ post))).drop (4 + 1)) with
      | none => _ | some cend => _) = _
    rw [show ("```c\n".data ++ (body ++ ("```".data ++ post))).drop (4 + 1)
      = body ++ ("```".data ++ post) from rfl]
    rw [strstrIdx_append_not_mem '`' _ body _ hb,
      strstrIdx_of_prefix (by simp [List.isPrefixOf] :
        ("```".data).isPrefixOf ("```".data ++ post) = true)]
    show (if 0 + body.length + 1 < maxCode then
        some (rtrimSolution ((body ++ ("```".data ++ post)).take (0 + body.length)))
      else none) = _
    rw [if_pos (by simpa using hcap)]
    rw [show (0 + body.length) = body.length from by omega, List.take_left]
  · have hnone : strstrIdx "```c".data
        (pre ++ ("```\n".data ++ (body ++ ("```".data ++ post)))) = none := by
      cases h : strstrIdx "```c".data
        (pre ++ ("```\n".data ++ (body ++ ("```".data ++ post)))) with
      | none => rfl
      | some v =>
        have hiso := containsSeq_eq_isSome "```c".data
          (pre ++ ("```\n".data ++ (body ++ ("```".data ++ post))))
        rw [hnc, h] at hiso
        cases hiso
    have hidx : strstrIdx "```".data
        (pre ++ ("```\n".data ++ (body ++ ("```".data ++ post)))) = some pre.length := by
      rw [strstrIdx_append_not_mem '`' _ pre _ hp,
        strstrIdx_of_prefix (by simp [List.isPrefixOf] :
          ("```".data).isPrefixOf ("```\n".data ++ (body ++ ("```".data ++ post))) = true)]
      simp
    unfold extractSolutionCode
    rw [hnone]
    show (match strstrIdx "```".data
        (pre ++ ("```\n".data ++ (body ++ ("```".data ++ post)))) with
      | none => _ | some idx => _) = _
    rw [hidx]
    show (match strstrIdx ['\n']
        ((pre ++ ("```\n".data ++ (body ++ ("```".data ++ post)))).drop pre.length) with
      | none => _ | some nl => _) = _
    rw [List.drop_left, strstrIdx_newline_fence]
    show (match strstrIdx "```".data
        (("```\n".data ++ (body ++ ("```".data ++ post))).drop (3 + 1)) with
      | none => _ | some cend => _) = _
    rw [show ("```\n".data ++ (body ++ ("```".data ++ post))).drop (3 + 1)
      = body ++ ("```".data ++ post) from rfl]
    rw [strstrIdx_append_not_mem '`' _ body _ hb,
      strstrIdx_of_prefix (by simp [List.isPrefixOf] :
        ("```".data).isPrefixOf ("```".data ++ post) = true)]
    show (if 0 + body.length + 1 < maxCode then
        some (rtrimSolution ((body ++ ("```".data ++ post)).take (0 + body.length)))
      else none) = _
    rw [if_pos (by simpa using hcap)]
    rw [show (0 + body.length) = body.length from by omega, List.take_left]
  · -- the response: untagged block, then `mid`, then the tagged block, then `post`
    have hidx : strstrIdx "```c".data
        ("```\n".data ++ (u ++ ("```".data ++ (mid ++ ("```c\n".data
          ++ (body ++ ("```".data ++ post)))))))
        = some (mid.length + 3 + u.length + 4) := by
      rw [strstrIdx_fenceC_skip_fence_nl,
        strstrIdx_append_not_mem '`' _ u _ hu]
      rw [show ("```".data ++ (mid ++ ("```c\n".data ++ (body ++ ("```".data ++ post)))))
        = '`' :: '`' :: '`' :: (mid ++ ("```c\n".data ++ (body ++ ("```".data ++ post))))
        from rfl]
      rw [strstrIdx_fenceC_skip_close mid _ hm hh]
      rfl
    unfold extractSolutionCode
    rw [hidx]
    have hsplit : ("```\n".data ++ (u ++ ("```".data ++ (mid ++ ("```c\n".data
          ++ (body ++ ("```".data ++ post)))))))
        = (("```\n".data ++ u ++ "```".data ++ mid)
            ++ ("```c\n".data ++ (body ++ ("```".data ++ post)))) := by
      simp [List.append_assoc]
    have hlen : mid.length + 3 + u.length + 4
        = ("```\n".data ++ u ++ "```".data ++ mid).length := by
      simp [List.length_append]
      omega
    show (match strstrIdx ['\n']
        (("```\n".data ++ (u ++ ("```".data ++ (mid ++ ("```c\n".data
          ++ (body ++ ("```".data ++ post))))))).drop (mid.length + 3 + u.length + 4)) with
      | none => _ | some nl => _) = _
    rw [hsplit, hlen, List.drop_left, strstrIdx_newline_fenceC]
    show (match strstrIdx "```".data
        (("```c\n".data ++ (body ++ ("```".data ++ post))).drop (4 + 1)) with
      | none => _ | some cend => _) = _
    rw [show ("```c\n".data ++ (body ++ ("```".data ++ post))).drop (4 + 1)
      = body ++ ("```".data ++ post) from rfl]
    rw [strstrIdx_append_not_mem '`' _ body _ hb,
      strstrIdx_of_prefix (by simp [List.isPrefixOf] :
        ("```".data).isPrefixOf ("```".data ++ post) = true)]
    show (if 0 + body.length + 1 < maxCode then
        some (rtrimSolution ((body ++ ("```".data ++ post)).take (0 + body.length)))
      else none) = _
    rw [if_pos (by simpa using hcap)]
    rw [show (0 + body.length) = body.length from by omega, List.take_left]

/-- Witness for C9 at concrete responses: a fence-free reply gets wrapped; a
closed tagged block is extracted with later blocks ignored; a tagged block is
preferred over an earlier untagged one. -/
theorem code_block_extraction_contract_witness :
    validateAndCleanResponse "no fences at all".data
        = "Analysis: Attempting to fix the code.\n\n```c\n".data
          ++ "no fences at all".data ++ "\n```".data
      ∧ extractSolutionCode 1000
          ("Reply:\n".data ++ ("```c\n".data ++ ("int x;\n".data
            ++ ("```".data ++ "\nignored ignored".data))))
          = some (rtrimSolution "int x;\n".data)
      ∧ extractSolutionCode 1000
          ("```\n".data ++ ("plain\n".data ++ ("```".data ++ ("\nmid\n".data
            ++ ("```c\n".data ++ ("tagged\n".data ++ ("```".data ++ [])))))))
          = some (rtrimSolution "tagged\n".data) := by
  obtain ⟨h1, h2, h3, h4, h5, h6⟩ := code_block_extraction_contract
  exact ⟨h1 _ (by decide),
    h4 1000 "Reply:\n".data "int x;\n".data "\nignored ignored".data
      (by decide) (by decide) (by decide),
    h6 1000 "plain\n".data "\nmid\n".data "tagged\n".data []
      (by decide) (by decide) (by decide) (by decide) (by decide)⟩

/-! ### Monotonicity helpers for the scoring pipeline (C4) -/

/-- Clamping to [0, 100] preserves order. -/
theorem clamp_mono {a b : ℚ} (h : a ≤ b) : max 0 (min 100 a) ≤ max 0 (min 100 b) :=
  max_le_max le_rfl (min_le_min le_rfl h)

/-- A nonpositive score clamps to 0. -/
theorem clamp_nonpos {a : ℚ} (h : a ≤ 0) : max 0 (min 100 a) = 0 :=
  max_eq_left ((min_le_right 100 a).trans h)

/-- Subtracting the same enabled penalty preserves order. -/
theorem ite_sub_const_mono (C : Prop) [Decidable C] {s s' p : ℚ} (h : s ≤ s') :
    (if C then s - p else s) ≤ (if C then s' - p else s') := by
  split_ifs <;> linarith

/-- Scaling by the same nonnegative enabled factor preserves order. -/
theorem ite_mul_factor_mono (C : Prop) [Decidable C] {s s' f : ℚ} (h : s ≤ s')
    (hf : C → 0 ≤ f) :
    (if C then s * f else s) ≤ (if C then s' * f else s') := by
  split_ifs with hc
  · exact mul_le_mul_of_nonneg_right h (hf hc)
  · exact h

/-- The proportional over-cap penalty of the performance score is
antitone in the measured value. -/
theorem sub_penalty_ite_mono (P : Prop) [Decidable P] (M : ℚ) (hPM : P → 0 < M)
    {x₁ x₂ : ℚ} (h : x₁ ≤ x₂) (S k : ℚ) (hk : 0 ≤ k) :
    (if P ∧ 1 < x₂ / M then S - (x₂ / M - 1) * k else S)
      ≤ (if P ∧ 1 < x₁ / M then S - (x₁ / M - 1) * k else S) := by
  by_cases hc2 : P ∧ 1 < x₂ / M
  · rw [if_pos hc2]
    have hM := hPM hc2.1
    have hdiv : x₁ / M ≤ x₂ / M := by gcongr
    by_cases hc1 : P ∧ 1 < x₁ / M
    · rw [if_pos hc1]
      nlinarith
    · rw [if_neg hc1]
      nlinarith [hc2.2]
  · rw [if_neg hc2]
    by_cases hc1 : P ∧ 1 < x₁ / M
    · exfalso
      have hM := hPM hc1.1
      have hdiv : x₁ / M ≤ x₂ / M := by gcongr
      exact hc2 ⟨hc1.1, lt_of_lt_of_le hc1.2 hdiv⟩
    · rw [if_neg hc1]

/-- The throughput scaling of the performance score is monotone in
throughput on the valid (nonnegative) domain, once clamped. -/
theorem throughput_scale_clamp_mono (V T : ℚ) {a b : ℚ} (h0 : 0 ≤ a) (h : a ≤ b) :
    max 0 (min 100 (if 0 < T ∧ a < T then V * (a / T) else V))
      ≤ max 0 (min 100 (if 0 < T ∧ b < T then V * (b / T) else V)) := by
  rcases le_or_lt V 0 with hV | hV
  · have l1 : (if 0 < T ∧ a < T then V * (a / T) else V) ≤ 0 := by
      split_ifs with hc
      · exact mul_nonpos_iff.mpr (.inr ⟨hV, div_nonneg h0 (le_of_lt hc.1)⟩)
      · exact hV
    have l2 : (if 0 < T ∧ b < T then V * (b / T) else V) ≤ 0 := by
      split_ifs with hc
      · exact mul_nonpos_iff.mpr (.inr ⟨hV, div_nonneg (h0.trans h) (le_of_lt hc.1)⟩)
      · exact hV
    rw [clamp_nonpos l1, clamp_nonpos l2]
  · apply clamp_mono
    by_cases h1 : 0 < T ∧ a < T
    · rw [if_pos h1]
      by_cases h2 : 0 < T ∧ b < T
      · rw [if_pos h2]
        have hdiv : a / T ≤ b / T := by
          have := h1.1
          gcongr
        exact mul_le_mul_of_nonneg_left hdiv (le_of_lt hV)
      · rw [if_neg h2]
        have hle1 : a / T ≤ 1 := (div_le_one h1.1).mpr (le_of_lt h1.2)
        nlinarith
    · rw [if_neg h1]
      by_cases h2 : 0 < T ∧ b < T
      · exfalso
        exact h1 ⟨h2.1, lt_of_le_of_lt h h2.2⟩
      · rw [if_neg h2]

/-- The coverage scaling of the quality score is monotone in coverage on the
valid domain (base score nonnegative). -/
theorem coverage_scale_mono (B minc : ℚ) (hB : 0 ≤ B) {v₁ v₂ : ℚ} (_h0 : 0 ≤ v₁)
    (h : v₁ ≤ v₂) :
    (if 0 < minc ∧ v₁ < minc then B * (v₁ / minc) else B)
      ≤ (if 0 < minc ∧ v₂ < minc then B * (v₂ / minc) else B) := by
  by_cases h1 : 0 < minc ∧ v₁ < minc
  · rw [if_pos h1]
    by_cases h2 : 0 < minc ∧ v₂ < minc
    · rw [if_pos h2]
      have hdiv : v₁ / minc ≤ v₂ / minc := by
        have := h1.1
        gcongr
      exact mul_le_mul_of_nonneg_left hdiv hB
    · rw [if_neg h2]
      have hle1 : v₁ / minc ≤ 1 := (div_le_one h1.1).mpr (le_of_lt h1.2)
      nlinarith
  · rw [if_neg h1]
    by_cases h2 : 0 < minc ∧ v₂ < minc
    · exfalso
      exact h1 ⟨h2.1, lt_of_le_of_lt h h2.2⟩
    · rw [if_neg h2]

/-- The maintainability scaling of the quality score is monotone in the
maintainability index for a nonnegative incoming score, once clamped. -/
theorem maintainability_scale_clamp_mono (S : ℚ) (hS : 0 ≤ S) {w₁ w₂ : ℚ}
    (h : w₁ ≤ w₂) :
    max 0 (min 100 (if w₁ < 70 then S * (w₁ / 70) else S))
      ≤ max 0 (min 100 (if w₂ < 70 then S * (w₂ / 70) else S)) := by
  apply clamp_mono
  by_cases h1 : w₁ < 70
  · rw [if_pos h1]
    by_cases h2 : w₂ < 70
    · rw [if_pos h2]
      have hdiv : w₁ / 70 ≤ w₂ / 70 := by gcongr
      exact mul_le_mul_of_nonneg_left hdiv hS
    · rw [if_neg h2]
      have hle1 : w₁ / 70 ≤ 1 := by
        rw [div_le_one (by norm_num : (0:ℚ) < 70)]
        linarith
      nlinarith
  · rw [if_neg h1]
    by_cases h2 : w₂ < 70
    · exfalso
      linarith
    · rw [if_neg h2]

/-- C4: the overall score is exactly the 0.4/0.3/0.3 linear combination of
the three stored sub-scores, and each sub-score is monotone in each
underlying metric on the valid (nonnegative) metric domain: lower execution
time, lower memory, higher throughput, lower cyclomatic complexity, higher
coverage and higher maintainability never decrease the corresponding
sub-score. -/
theorem score_monotone_and_linear :
    (∀ (t : TestResult) (perf : PerformanceMetrics) (q : QualityMetrics)
        (c : EvaluationCriteria),
        (evaluateCodeComprehensive t perf q c).overall_score
          = (evaluateCodeComprehensive t perf q c).correctness_score * (4 / 10)
            + (evaluateCodeComprehensive t perf q c).performance_score * (3 / 10)
            + (evaluateCodeComprehensive t perf q c).quality_score * (3 / 10))
      ∧ (∀ (c : EvaluationCriteria) (perf : PerformanceMetrics) (t₁ t₂ : ℚ),
          0 ≤ perf.throughput → t₁ ≤ t₂ →
          performanceScoreEnabled c { perf with execution_time_ms := t₂ }
            ≤ performanceScoreEnabled c { perf with execution_time_ms := t₁ })
      ∧ (∀ (c : EvaluationCriteria) (perf : PerformanceMetrics) (m₁ m₂ : Int),
          0 ≤ perf.throughput → m₁ ≤ m₂ →
          performanceScoreEnabled c { perf with memory_usage_kb := m₂ }
            ≤ performanceScoreEnabled c { perf with memory_usage_kb := m₁ })
      ∧ (∀ (c : EvaluationCriteria) (perf : PerformanceMetrics) (th₁ th₂ : ℚ),
          0 ≤ th₁ → th₁ ≤ th₂ →
          performanceScoreEnabled c { perf with throughput := th₁ }
            ≤ performanceScoreEnabled c { perf with throughput := th₂ })
      ∧ (∀ (c : EvaluationCriteria) (q : QualityMetrics) (k₁ k₂ : Int),
          0 ≤ q.test_coverage_percent → 0 ≤ q.maintainability_index → k₁ ≤ k₂ →
          qualityScoreEnabled c { q with cyclomatic_complexity := k₂ }
            ≤ qualityScoreEnabled c { q with cyclomatic_complexity := k₁ })
      ∧ (∀ (c : EvaluationCriteria) (q : QualityMetrics) (v₁ v₂ : ℚ),
          0 ≤ v₁ → 0 ≤ q.maintainability_index → v₁ ≤ v₂ →
          qualityScoreEnabled c { q with test_coverage_percent := v₁ }
            ≤ qualityScoreEnabled c { q with test_coverage_percent := v₂ })
      ∧ (∀ (c : EvaluationCriteria) (q : QualityMetrics) (w₁ w₂ : ℚ),
          0 ≤ w₁ → 0 ≤ q.test_coverage_percent → w₁ ≤ w₂ →
          qualityScoreEnabled c { q with maintainability_index := w₁ }
            ≤ qualityScoreEnabled c { q with maintainability_index := w₂ }) := by
  refine ⟨fun t perf q c => rfl, fun c perf t₁ t₂ hth h => ?_, fun c perf m₁ m₂ hth h => ?_,
    fun c perf th₁ th₂ h0 h => ?_, fun c q k₁ k₂ hcov hmi h => ?_,
    fun c q v₁ v₂ h0 hmi h => ?_, fun c q w₁ w₂ h0 hcov h => ?_⟩
  · unfold performanceScoreEnabled
    dsimp only
    apply clamp_mono
    apply ite_mul_factor_mono _ _
      (fun hc => div_nonneg hth (le_of_lt hc.1))
    apply ite_sub_const_mono
    exact sub_penalty_ite_mono _ _ (fun hp => hp) h 100 50 (by norm_num)
  · unfold performanceScoreEnabled
    dsimp only
    apply clamp_mono
    apply ite_mul_factor_mono _ _
      (fun hc => div_nonneg hth (le_of_lt hc.1))
    exact sub_penalty_ite_mono (0 < c.max_memory_usage_kb) _
      (fun hp => by exact_mod_cast hp) (by exact_mod_cast h) _ 30 (by norm_num)
  · unfold performanceScoreEnabled
    dsimp only
    exact throughput_scale_clamp_mono _ _ h0 h
  · unfold qualityScoreEnabled
    dsimp only
    apply clamp_mono
    apply ite_mul_factor_mono _ _ (fun _ => div_nonneg hmi (by norm_num))
    apply ite_mul_factor_mono _ _ (fun hc => div_nonneg hcov (le_of_lt hc.1))
    by_cases hc2 : 0 < c.max_cyclomatic_complexity ∧ c.max_cyclomatic_complexity < k₂
    · rw [if_pos hc2]
      by_cases hc1 : 0 < c.max_cyclomatic_complexity ∧ c.max_cyclomatic_complexity < k₁
      · rw [if_pos hc1]
      · rw [if_neg hc1]
        norm_num
    · rw [if_neg hc2]
      by_cases hc1 : 0 < c.max_cyclomatic_complexity ∧ c.max_cyclomatic_complexity < k₁
      · exfalso
        exact hc2 ⟨hc1.1, lt_of_lt_of_le hc1.2 h⟩
      · rw [if_neg hc1]
  · unfold qualityScoreEnabled
    dsimp only
    apply clamp_mono
    apply ite_mul_factor_mono _ _ (fun _ => div_nonneg hmi (by norm_num))
    apply coverage_scale_mono _ _ ?_ h0 h
    split_ifs <;> norm_num
  · unfold qualityScoreEnabled
    dsimp only
    apply maintainability_scale_clamp_mono _ ?_ h
    have hB : (0:ℚ) ≤ (if 0 < c.max_cyclomatic_complexity ∧
        c.max_cyclomatic_complexity < q.cyclomatic_complexity then (100:ℚ) - 20
      else (100:ℚ)) := by
      split_ifs <;> norm_num
    by_cases hc : 0 < c.min_test_coverage_percent ∧
        q.test_coverage_percent < c.min_test_coverage_percent
    · rw [if_pos hc]
      exact mul_nonneg hB (div_nonneg hcov (le_of_lt hc.1))
    · rw [if_neg hc]
      exact hB

/-- Witness for C4 at concrete metric values and the default criteria. -/
theorem score_monotone_and_linear_witness :
    ((evaluateCodeComprehensive passingTestResult zeroPerformance zeroQuality
        defaultCriteria).overall_score
      = (evaluateCodeComprehensive passingTestResult zeroPerformance zeroQuality
          defaultCriteria).correctness_score * (4 / 10)
        + (evaluateCodeComprehensive passingTestResult zeroPerformance zeroQuality
            defaultCriteria).performance_score * (3 / 10)
        + (evaluateCodeComprehensive passingTestResult zeroPerformance zeroQuality
            defaultCriteria).quality_score * (3 / 10))
      ∧ performanceScoreEnabled defaultCriteria
          { zeroPerformance with execution_time_ms := 2000 }
          ≤ performanceScoreEnabled defaultCriteria
            { zeroPerformance with execution_time_ms := 500 }
      ∧ performanceScoreEnabled defaultCriteria
          { zeroPerformance with memory_usage_kb := 20480 }
          ≤ performanceScoreEnabled defaultCriteria
            { zeroPerformance with memory_usage_kb := 1024 }
      ∧ performanceScoreEnabled defaultCriteria { zeroPerformance with throughput := 100 }
          ≤ performanceScoreEnabled defaultCriteria { zeroPerformance with throughput := 900 }
      ∧ qualityScoreEnabled defaultCriteria { zeroQuality with cyclomatic_complexity := 30 }
          ≤ qualityScoreEnabled defaultCriteria { zeroQuality with cyclomatic_complexity := 5 }
      ∧ qualityScoreEnabled defaultCriteria { zeroQuality with test_coverage_percent := 40 }
          ≤ qualityScoreEnabled defaultCriteria { zeroQuality with test_coverage_percent := 90 }
      ∧ qualityScoreEnabled defaultCriteria { zeroQuality with maintainability_index := 30 }
          ≤ qualityScoreEnabled defaultCriteria
            { zeroQuality with maintainability_index := 80 } := by
  obtain ⟨h1, h2, h3, h4, h5, h6, h7⟩ := score_monotone_and_linear
  exact ⟨h1 passingTestResult zeroPerformance zeroQuality defaultCriteria,
    h2 defaultCriteria zeroPerformance 500 2000 le_rfl (by norm_num),
    h3 defaultCriteria zeroPerformance 1024 20480 le_rfl (by norm_num),
    h4 defaultCriteria zeroPerformance 100 900 (by norm_num) (by norm_num),
    h5 defaultCriteria zeroQuality 5 30 le_rfl le_rfl (by norm_num),
    h6 defaultCriteria zeroQuality 40 90 (by norm_num) le_rfl (by norm_num),
    h7 defaultCriteria zeroQuality 30 80 (by norm_num) le_rfl (by norm_num)⟩

/-! ### C1: the parse/assemble round trip -/

/-- A plain line contains no start marker. -/
theorem plain_no_start {l : Chars} (h : isPlainLine l = true) :
    containsSeq markerStart l = false := by
  unfold isPlainLine at h
  have h1 := (Bool.and_eq_true_iff.mp h).1
  simpa using h1

/-- A plain line contains no end marker. -/
theorem plain_no_end {l : Chars} (h : isPlainLine l = true) :
    containsSeq markerEnd l = false := by
  unfold isPlainLine at h
  have h2 := (Bool.and_eq_true_iff.mp h).2
  simpa using h2

/-- A stop line contains no start marker. -/
theorem stop_no_start {l : Chars} (h : isStopLine l = true) :
    containsSeq markerStart l = false := by
  unfold isStopLine at h
  have h1 := (Bool.and_eq_true_iff.mp h).1
  simpa using h1

/-- A stop line contains the end marker. -/
theorem stop_has_end {l : Chars} (h : isStopLine l = true) :
    containsSeq markerEnd l = true := by
  unfold isStopLine at h
  exact (Bool.and_eq_true_iff.mp h).2

/-- A stop line is not plain. -/
theorem stop_not_plain {l : Chars} (h : isStopLine l = true) : isPlainLine l = false := by
  unfold isPlainLine
  rw [stop_has_end h]
  simp

/-- Structure of a well-formed tail while a region is open: plain body lines,
a closing line, and a well-formed remainder. -/
theorem wfGo_true_structure :
    ∀ ls : List Chars, wfGo true ls = true →
      ∃ body e rest, ls = body ++ e :: rest ∧ (∀ x ∈ body, isPlainLine x = true)
        ∧ isStopLine e = true ∧ wfGo false rest = true := by
  intro ls
  induction ls with
  | nil => intro h; simp [wfGo] at h
  | cons l t ih =>
    intro h
    unfold wfGo at h
    by_cases hs : isStartLine l = true
    · rw [if_pos hs] at h
      cases h
    · rw [if_neg hs] at h
      by_cases he : isStopLine l = true
      · rw [if_pos he] at h
        exact ⟨[], l, t, rfl, by simp, he, h⟩
      · rw [if_neg he] at h
        obtain ⟨body, e, rest, heq, hb, hee, hrest⟩ := ih h
        refine ⟨l :: body, e, rest, by rw [heq]; rfl, ?_, hee, hrest⟩
        intro x hx
        rcases List.mem_cons.mp hx with rfl | hx
        · unfold isPlainLine
          have hs' : containsSeq markerStart x = false := by
            simpa [isStartLine] using hs
          have he' : containsSeq markerEnd x = false := by
            unfold isStopLine at he
            simpa [hs'] using he
          simp [hs', he']
        · exact hb x hx

/-- A well-formed list with a non-start head has a plain head and a
well-formed tail. -/
theorem wfGo_false_cons_plain {l : Chars} {t : List Chars}
    (hwf : wfGo false (l :: t) = true) (hs : isStartLine l = false) :
    isPlainLine l = true ∧ wfGo false t = true := by
  unfold wfGo at hwf
  rw [if_neg (by simp [hs])] at hwf
  by_cases he : isStopLine l = true
  · rw [if_pos he] at hwf
    cases hwf
  · rw [if_neg he] at hwf
    refine ⟨?_, hwf⟩
    unfold isPlainLine
    unfold isStopLine at he
    have hs' : containsSeq markerStart l = false := by simpa [isStartLine] using hs
    simp [hs'] at he ⊢
    simpa using he

/-- A well-formed list with a start head carries no end marker on that line
and opens a well-formed region. -/
theorem wfGo_false_cons_start {l : Chars} {t : List Chars}
    (hwf : wfGo false (l :: t) = true) (hs : isStartLine l = true) :
    containsSeq markerEnd l = false ∧ wfGo true t = true := by
  unfold wfGo at hwf
  rw [if_pos hs] at hwf
  have h := Bool.and_eq_true_iff.mp hwf
  exact ⟨by simpa using h.1, h.2⟩

/-- `takeWhile` of plain lines stops exactly at the closing line. -/
theorem takeWhile_plains_append (body : List Chars) (e : Chars) (rest : List Chars)
    (hb : ∀ x ∈ body, isPlainLine x = true) (he : isPlainLine e = false) :
    (body ++ e :: rest).takeWhile (fun x => isPlainLine x) = body := by
  induction body with
  | nil => simp [List.takeWhile_cons, he]
  | cons x t ih =>
    rw [List.cons_append, List.takeWhile_cons, if_pos (hb x (.head t))]
    rw [ih (fun y hy => hb y (.tail x hy))]

/-- `joinNl` distributes over append. -/
theorem joinNl_append (a b : List Chars) : joinNl (a ++ b) = joinNl a ++ joinNl b := by
  simp [joinNl]

/-- `joinNl` on a cons. -/
theorem joinNl_cons (l : Chars) (ls : List Chars) :
    joinNl (l :: ls) = (l ++ ['\n']) ++ joinNl ls := by
  simp [joinNl]

/-- A nonempty line list joins to a nonempty text. -/
theorem joinNl_ne_nil (ls : List Chars) (h : ls ≠ []) : joinNl ls ≠ [] := by
  cases ls with
  | nil => exact absurd rfl h
  | cons l t =>
    rw [joinNl_cons]
    simp

/-- The joined text of a nonempty line list ends in a newline. -/
theorem joinNl_getLast (ls : List Chars) (h : ls ≠ []) :
    (joinNl ls).getLast? = some '\n' := by
  induction ls with
  | nil => exact absurd rfl h
  | cons l t ih =>
    rw [joinNl_cons]
    cases ht : t with
    | nil =>
      show (l ++ ['\n'] ++ joinNl []).getLast? = some '\n'
      rw [show joinNl [] = [] from rfl, List.append_nil,
        List.getLast?_append_of_ne_nil l (by simp : (['\n'] : Chars) ≠ [])]
      rfl
    | cons y ys =>
      rw [List.getLast?_append_of_ne_nil (l ++ ['\n'])
        (joinNl_ne_nil (y :: ys) (by simp))]
      rw [← ht]
      exact ih (by simp [ht])

/-- Step equation of the block counter at the top level. -/
theorem countBlocksGo_false_cons (l : Chars) (ls : List Chars) :
    countBlocksGo false (l :: ls)
      = if isStartLine l = true then countBlocksGo true ls
        else countBlocksGo false ls := rfl

/-- Step equation of the block counter inside a region. -/
theorem countBlocksGo_true_cons (l : Chars) (ls : List Chars) :
    countBlocksGo true (l :: ls)
      = if isStartLine l = true then countBlocksGo true ls
        else if isStopLine l = true then 1 + countBlocksGo false ls
        else countBlocksGo true ls := rfl

/-- A plain line is not a stop line. -/
theorem plain_not_stop {l : Chars} (h : isPlainLine l = true) : isStopLine l = false := by
  unfold isStopLine
  rw [plain_no_end h]
  simp

/-- Counting while a region is open: the block closes at the stop line. -/
theorem countBlocksGo_true_body (body : List Chars) (e : Chars) (rest : List Chars)
    (hb : ∀ x ∈ body, isPlainLine x = true) (he : isStopLine e = true) :
    countBlocksGo true (body ++ e :: rest) = 1 + countBlocksGo false rest := by
  induction body with
  | nil =>
    rw [List.nil_append, countBlocksGo_true_cons,
      if_neg (by simp [isStartLine, stop_no_start he]), if_pos he]
  | cons x t ih =>
    have hx := hb x (.head t)
    rw [List.cons_append, countBlocksGo_true_cons,
      if_neg (by simp [isStartLine, plain_no_start hx]),
      if_neg (by simp [plain_not_stop hx])]
    exact ih fun y hy => hb y (.tail x hy)

/-- A closed block contributes exactly one to the block count. -/
theorem countBlocksGo_block (l : Chars) (body : List Chars) (e : Chars) (rest : List Chars)
    (hl : isStartLine l = true) (hb : ∀ x ∈ body, isPlainLine x = true)
    (he : isStopLine e = true) :
    countBlocksGo false (l :: (body ++ e :: rest)) = 1 + countBlocksGo false rest := by
  rw [countBlocksGo_false_cons, if_pos hl]
  exact countBlocksGo_true_body body e rest hb he

/-- A well-formed list containing a start line has at least one block. -/
theorem countBlocks_pos :
    ∀ (ls : List Chars), wfGo false ls = true →
      ∀ j l, ls.get? j = some l → isStartLine l = true →
        1 ≤ countBlocksGo false ls := by
  intro ls
  induction ls with
  | nil => intro _ j l hj; cases hj
  | cons x t ih =>
    intro hwf j l hj hl
    by_cases hs : isStartLine x = true
    · obtain ⟨hne, hwt⟩ := wfGo_false_cons_start hwf hs
      obtain ⟨body, e, rest, rfl, hb, he, hrest⟩ := wfGo_true_structure t hwt
      rw [countBlocksGo_block x body e rest hs hb he]
      omega
    · obtain ⟨hplain, hwt⟩ := wfGo_false_cons_plain hwf (by simpa using hs)
      have hcount : countBlocksGo false (x :: t) = countBlocksGo false t := by
        rw [countBlocksGo_false_cons, if_neg (by simp_all)]
      rw [hcount]
      cases j with
      | zero =>
        cases hj
        exact absurd hl (by simpa using hs)
      | succ m => exact ih hwt m l hj hl

/-- Body accounting while a region is open. -/
theorem bodiesOkGo_some_body (body : List Chars) (e : Chars) (rest : List Chars)
    (hb : ∀ x ∈ body, isPlainLine x = true) (he : isStopLine e = true) :
    ∀ b, bodiesOkGo (some b) (body ++ e :: rest) = true →
      (body = [] → b = true) ∧ bodiesOkGo none rest = true := by
  induction body with
  | nil =>
    intro b h
    rw [List.nil_append] at h
    unfold bodiesOkGo at h
    rw [if_neg (by simp [isStartLine, stop_no_start he]), if_pos he] at h
    have h2 := Bool.and_eq_true_iff.mp h
    exact ⟨fun _ => h2.1, h2.2⟩
  | cons x t ih =>
    intro b h
    have hx := hb x (.head t)
    rw [List.cons_append] at h
    unfold bodiesOkGo at h
    rw [if_neg (by simp [isStartLine, plain_no_start hx]),
      if_neg (by simp [isStopLine, plain_no_start hx, plain_no_end hx])] at h
    exact ⟨fun hc => absurd hc (by simp), (ih (fun y hy => hb y (.tail x hy)) true h).2⟩

/-- A well-formed closed block with `bodiesOk` has a nonempty body. -/
theorem bodiesOk_block (l : Chars) (body : List Chars) (e : Chars) (rest : List Chars)
    (hl : isStartLine l = true) (hb : ∀ x ∈ body, isPlainLine x = true)
    (he : isStopLine e = true)
    (h : bodiesOkGo none (l :: (body ++ e :: rest)) = true) :
    body ≠ [] ∧ bodiesOkGo none rest = true := by
  unfold bodiesOkGo at h
  rw [if_pos hl] at h
  obtain ⟨hemp, hrest⟩ := bodiesOkGo_some_body body e rest hb he false h
  refine ⟨fun hc => ?_, hrest⟩
  cases hemp hc

/-- Step equation of the parser with no open region. -/
theorem parseGo_cons_none (i k : Nat) (l : Chars) (ls : List Chars) :
    parseGo i k none (l :: ls)
      = if maxEvolutionRegions ≤ k then []
        else if containsSeq markerStart (trimWs l) = true then
          parseGo (i + 1) k (some (i, descFromLine (trimWs l) k, [])) ls
        else if containsSeq markerEnd (trimWs l) = true then parseGo (i + 1) k none ls
        else parseGo (i + 1) k none ls := rfl

/-- Step equation of the parser with an open region. -/
theorem parseGo_cons_some (i k s : Nat) (d acc : Chars) (l : Chars) (ls : List Chars) :
    parseGo i k (some (s, d, acc)) (l :: ls)
      = if maxEvolutionRegions ≤ k then []
        else if containsSeq markerStart (trimWs l) = true then
          parseGo (i + 1) k (some (s, d, acc)) ls
        else if containsSeq markerEnd (trimWs l) = true then
          { description := d, content := acc, start_line := s, end_line := i,
            generation := 0, fitness_score := 0 } :: parseGo (i + 1) (k + 1) none ls
        else parseGo (i + 1) k (some (s, d, acc ++ l ++ ['\n'])) ls := rfl

/-- A start line opens a region. -/
theorem parseGo_step_start (i k : Nat) (hk : k < maxEvolutionRegions) {l : Chars}
    (ls : List Chars) (hs : isStartLine l = true) :
    parseGo i k none (l :: ls)
      = parseGo (i + 1) k (some (i, descFromLine (trimWs l) k, [])) ls := by
  rw [parseGo_cons_none, if_neg (by omega),
    if_pos (by rw [markerStart_trimWs]; exact hs)]

/-- A plain line outside any region is skipped. -/
theorem parseGo_step_plain_none (i k : Nat) (hk : k < maxEvolutionRegions) {l : Chars}
    (ls : List Chars) (hp : isPlainLine l = true) :
    parseGo i k none (l :: ls) = parseGo (i + 1) k none ls := by
  rw [parseGo_cons_none, if_neg (by omega),
    if_neg (by rw [markerStart_trimWs]; simp [plain_no_start hp]),
    if_neg (by rw [markerEnd_trimWs]; simp [plain_no_end hp])]

/-- A plain line inside a region is appended, newline-terminated, to the
accumulated content. -/
theorem parseGo_step_plain_some (i k s : Nat) (hk : k < maxEvolutionRegions)
    (d acc : Chars) {l : Chars} (ls : List Chars) (hp : isPlainLine l = true) :
    parseGo i k (some (s, d, acc)) (l :: ls)
      = parseGo (i + 1) k (some (s, d, acc ++ l ++ ['\n'])) ls := by
  rw [parseGo_cons_some, if_neg (by omega),
    if_neg (by rw [markerStart_trimWs]; simp [plain_no_start hp]),
    if_neg (by rw [markerEnd_trimWs]; simp [plain_no_end hp])]

/-- A closing line saves the open region. -/
theorem parseGo_step_stop_close (i k s : Nat) (hk : k < maxEvolutionRegions)
    (d acc : Chars) {l : Chars} (ls : List Chars) (hstop : isStopLine l = true) :
    parseGo i k (some (s, d, acc)) (l :: ls)
      = { description := d, content := acc, start_line := s, end_line := i,
          generation := 0, fitness_score := 0 } :: parseGo (i + 1) (k + 1) none ls := by
  rw [parseGo_cons_some, if_neg (by omega),
    if_neg (by rw [markerStart_trimWs]; simp [stop_no_start hstop]),
    if_pos (by rw [markerEnd_trimWs]; exact stop_has_end hstop)]

/-- Plain body lines accumulate as their newline-joined text. -/
theorem parseGo_plains (k : Nat) (hk : k < maxEvolutionRegions) (s : Nat) (d : Chars) :
    ∀ (body : List Chars) (i : Nat) (acc : Chars) (ls : List Chars),
      (∀ x ∈ body, isPlainLine x = true) →
      parseGo i k (some (s, d, acc)) (body ++ ls)
        = parseGo (i + body.length) k (some (s, d, acc ++ joinNl body)) ls := by
  intro body
  induction body with
  | nil =>
    intro i acc ls _
    simp [joinNl]
  | cons x t ih =>
    intro i acc ls hb
    rw [List.cons_append,
      parseGo_step_plain_some i k s hk d acc (t ++ ls) (hb x (.head t)),
      ih (i + 1) (acc ++ x ++ ['\n']) ls (fun y hy => hb y (.tail x hy))]
    have h1 : i + 1 + t.length = i + (x :: t).length := by
      simp [List.length_cons]
      omega
    have h2 : acc ++ x ++ ['\n'] ++ joinNl t = acc ++ joinNl (x :: t) := by
      rw [joinNl_cons]
      simp [List.append_assoc]
    rw [h1, h2]

/-- The positional lookup finds the head region when the index is inside its
span. -/
theorem findRegion_cons_self (r : EvoRegion) (rs : List EvoRegion) (n : Nat)
    (h1 : r.start_line ≤ n) (h2 : n ≤ r.end_line) :
    findRegion (r :: rs) n = some r := by
  unfold findRegion
  exact List.find?_cons_of_pos _ (by simp [h1, h2])

/-- The positional lookup skips a region that ends before the index. -/
theorem findRegion_cons_skip (r : EvoRegion) (rs : List EvoRegion) (n : Nat)
    (h : r.end_line < n) :
    findRegion (r :: rs) n = findRegion rs n := by
  unfold findRegion
  refine List.find?_cons_of_neg _ ?_
  simp
  omega

/-- Token-line lookup beyond a closed block lands in the remainder. -/
theorem get?_block (l : Chars) (body : List Chars) (e : Chars) (rest : List Chars)
    (j' : Nat) :
    (l :: (body ++ e :: rest)).get? (body.length + 2 + j') = rest.get? j' := by
  rw [show body.length + 2 + j' = (body.length + 1 + j') + 1 from by omega,
    List.get?_cons_succ, List.get?_append_right (by omega),
    show body.length + 1 + j' - body.length = j' + 1 from by omega,
    List.get?_cons_succ]

/-- The body of a region opened beyond a closed block is computed in the
remainder. -/
theorem bodyAt_block (l : Chars) (body : List Chars) (e : Chars) (rest : List Chars)
    (j' : Nat) :
    bodyAt (l :: (body ++ e :: rest)) (body.length + 2 + j') = bodyAt rest j' := by
  unfold bodyAt
  rw [show body.length + 2 + j' + 1 = (body.length + (j' + 2)) + 1 from by omega,
    List.drop_succ_cons, List.drop_append (j' + 2),
    show j' + 2 = (j' + 1) + 1 from rfl, List.drop_succ_cons]

/-- Step equation of the body check outside a region. -/
theorem bodiesOkGo_none_cons (l : Chars) (ls : List Chars) :
    bodiesOkGo none (l :: ls)
      = if isStartLine l = true then bodiesOkGo (some false) ls
        else bodiesOkGo none ls := rfl

/-- The body of the region opened at the head line. -/
theorem bodyAt_cons_zero (l : Chars) (ls : List Chars) :
    bodyAt (l :: ls) 0 = ls.takeWhile (fun x => isPlainLine x) := rfl

/-- Body lookup shifts over the head line. -/
theorem bodyAt_cons_succ (l : Chars) (ls : List Chars) (j : Nat) :
    bodyAt (l :: ls) (j + 1) = bodyAt ls j := rfl

/-- Parsing well-formed lines under the region cap produces, for every start
line, a region the positional lookup finds, whose content is the
newline-joined (nonempty) body. -/
theorem parse_agree_aux (n : Nat) :
    ∀ (ls : List Chars), ls.length ≤ n → ∀ (i k : Nat),
      wfGo false ls = true →
      k + countBlocksGo false ls ≤ maxEvolutionRegions →
      bodiesOkGo none ls = true →
      Agree (parseGo i k none ls) i ls := by
  induction n with
  | zero =>
    intro ls hlen i k hwf hcap hbod
    have hnil : ls = [] := List.eq_nil_of_length_eq_zero (Nat.le_zero.mp hlen)
    subst hnil
    intro j l hj
    cases hj
  | succ n ih =>
    intro ls hlen i k hwf hcap hbod
    cases ls with
    | nil =>
      intro j l hj
      cases hj
    | cons l t =>
      by_cases hs : isStartLine l = true
      · obtain ⟨hne, hwt⟩ := wfGo_false_cons_start hwf hs
        obtain ⟨body, e, rest, ht, hb, he, hwr⟩ := wfGo_true_structure t hwt
        subst ht
        have hcnt : countBlocksGo false (l :: (body ++ e :: rest))
            = 1 + countBlocksGo false rest := countBlocksGo_block l body e rest hs hb he
        have hk : k < maxEvolutionRegions := by omega
        obtain ⟨hbody_ne, hbr⟩ := bodiesOk_block l body e rest hs hb he hbod
        have hparse : parseGo i k none (l :: (body ++ e :: rest))
            = { description := descFromLine (trimWs l) k, content := joinNl body,
                start_line := i, end_line := i + body.length + 1,
                generation := 0, fitness_score := 0 }
              :: parseGo (i + body.length + 2) (k + 1) none rest := by
          rw [parseGo_step_start i k hk (body ++ e :: rest) hs,
            parseGo_plains k hk i (descFromLine (trimWs l) k) body (i + 1) [] (e :: rest) hb,
            List.nil_append,
            parseGo_step_stop_close (i + 1 + body.length) k i hk
              (descFromLine (trimWs l) k) (joinNl body) rest he,
            show i + 1 + body.length = i + body.length + 1 from by omega,
            show i + body.length + 1 + 1 = i + body.length + 2 from by omega]
        have hrec : Agree (parseGo (i + body.length + 2) (k + 1) none rest)
            (i + body.length + 2) rest :=
          ih rest (by simp [List.length_append] at hlen; omega)
            (i + body.length + 2) (k + 1) hwr (by omega) hbr
        rw [hparse]
        intro j l' hj hstart'
        cases j with
        | zero =>
          have hl2 : l' = l := by simpa using hj.symm
          subst hl2
          refine ⟨_, findRegion_cons_self _ _ (i + 0)
            (by show i ≤ i + 0; omega) (by show i + 0 ≤ i + body.length + 1; omega), ?_, ?_⟩
          · rw [bodyAt_cons_zero, takeWhile_plains_append body e rest hb (stop_not_plain he)]
          · rw [bodyAt_cons_zero, takeWhile_plains_append body e rest hb (stop_not_plain he)]
            exact hbody_ne
        | succ j'' =>
          rw [List.get?_cons_succ] at hj
          rcases Nat.lt_trichotomy j'' body.length with hlt | heq | hgt
          · rw [List.get?_append hlt] at hj
            have hmem : l' ∈ body := List.get?_mem hj
            have := plain_no_start (hb l' hmem)
            rw [isStartLine] at hstart'
            rw [hstart'] at this
            cases this
          · subst heq
            rw [List.get?_append_right (le_refl _), Nat.sub_self,
              List.get?_cons_zero] at hj
            have hl' : l' = e := by simpa using hj.symm
            subst hl'
            have := stop_no_start he
            rw [isStartLine] at hstart'
            rw [hstart'] at this
            cases this
          · obtain ⟨j', rfl⟩ : ∃ j', j'' = body.length + 1 + j' :=
              ⟨j'' - (body.length + 1), by omega⟩
            have hj' : rest.get? j' = some l' := by
              rw [show body.length + 1 + j' = body.length + (j' + 1) from by omega,
                List.get?_append_right (by omega),
                show body.length + (j' + 1) - body.length = j' + 1 from by omega,
                List.get?_cons_succ] at hj
              exact hj
            obtain ⟨r, hfind, hcont, hne'⟩ := hrec j' l' hj' hstart'
            refine ⟨r, ?_, ?_, ?_⟩
            · rw [show i + (body.length + 1 + j' + 1) = i + body.length + 2 + j' from by omega,
                findRegion_cons_skip _ _ _ (by simp; omega)]
              rw [show i + body.length + 2 + j' = i + body.length + 2 + j' from rfl] at hfind
              exact hfind
            · rw [show body.length + 1 + j' + 1 = body.length + 2 + j' from by omega,
                bodyAt_block]
              exact hcont
            · rw [show body.length + 1 + j' + 1 = body.length + 2 + j' from by omega,
                bodyAt_block]
              exact hne'
      · have hs' : isStartLine l = false := by simpa using hs
        obtain ⟨hp, hwt⟩ := wfGo_false_cons_plain hwf hs'
        intro j l' hj hstart'
        have hk : k < maxEvolutionRegions := by
          have h1 : 1 ≤ countBlocksGo false (l :: t) :=
            countBlocks_pos (l :: t) hwf j l' hj hstart'
          omega
        have hrec : Agree (parseGo (i + 1) k none t) (i + 1) t := by
          refine ih t (by simp at hlen; omega) (i + 1) k hwt ?_ ?_
          · rw [countBlocksGo_false_cons, if_neg (by simp [hs'])] at hcap
            exact hcap
          · rw [bodiesOkGo_none_cons, if_neg (by simp [hs'])] at hbod
            exact hbod
        rw [parseGo_step_plain_none i k hk t hp]
        cases j with
        | zero =>
          have hl' : l' = l := by simpa using hj.symm
          subst hl'
          rw [isStartLine] at hstart'
          rw [plain_no_start hp] at hstart'
          cases hstart'
        | succ j' =>
          rw [List.get?_cons_succ] at hj
          obtain ⟨r, hfind, hcont, hne'⟩ := hrec j' l' hj hstart'
          refine ⟨r, ?_, ?_, ?_⟩
          · rw [show i + (j' + 1) = i + 1 + j' from by omega]
            exact hfind
          · rw [bodyAt_cons_succ]
            exact hcont
          · rw [bodyAt_cons_succ]
            exact hne'

/-- Agreement between parse output and the positional lookup, for any
well-formed line list under the region cap with nonempty bodies. -/
theorem parse_agree (ls : List Chars) (i k : Nat)
    (hwf : wfGo false ls = true)
    (hcap : k + countBlocksGo false ls ≤ maxEvolutionRegions)
    (hbod : bodiesOkGo none ls = true) :
    Agree (parseGo i k none ls) i ls :=
  parse_agree_aux ls.length ls (le_refl _) i k hwf hcap hbod

/-- Step equation of the reconstruction walk in `normal` mode. -/
theorem assembleGo_normal_cons (regions : List EvoRegion) (i : Nat) (l : Chars)
    (ls : List Chars) :
    assembleGo regions i .normal (l :: ls)
      = if containsSeq markerStart l then
          match findRegion regions i with
          | some r =>
            let cpart := r.content ++
              (if r.content ≠ [] ∧ r.content.getLast? ≠ some '\n' then ['\n'] else [])
            if containsSeq markerEnd l then
              (l ++ ['\n']) ++ cpart ++ (l ++ ['\n']) ++ assembleGo regions (i + 1) .normal ls
            else
              (l ++ ['\n']) ++ cpart ++ assembleGo regions (i + 1) .found ls
          | none => (l ++ ['\n']) ++ assembleGo regions (i + 1) .fallback ls
        else (l ++ ['\n']) ++ assembleGo regions (i + 1) .normal ls := rfl

/-- Step equation of the reconstruction walk in `found` (skip) mode. -/
theorem assembleGo_found_cons (regions : List EvoRegion) (i : Nat) (l : Chars)
    (ls : List Chars) :
    assembleGo regions i .found (l :: ls)
      = if containsSeq markerEnd l then
          (l ++ ['\n']) ++ assembleGo regions (i + 1) .normal ls
        else assembleGo regions (i + 1) .found ls := rfl

/-- A plain line in `normal` mode is copied through. -/
theorem assembleGo_normal_plain (regions : List EvoRegion) (i : Nat) {l : Chars}
    (ls : List Chars) (hp : isPlainLine l = true) :
    assembleGo regions i .normal (l :: ls)
      = (l ++ ['\n']) ++ assembleGo regions (i + 1) .normal ls := by
  rw [assembleGo_normal_cons, if_neg (by simp [plain_no_start hp])]

/-- A matched start line whose region content ends in a newline emits the
marker line and the content verbatim, then enters skip mode. -/
theorem assembleGo_normal_start_found (regions : List EvoRegion) (i : Nat) {l : Chars}
    (ls : List Chars) {r : EvoRegion}
    (hs : containsSeq markerStart l = true) (hne : containsSeq markerEnd l = false)
    (hfind : findRegion regions i = some r)
    (hcl : r.content.getLast? = some '\n') :
    assembleGo regions i .normal (l :: ls)
      = (l ++ ['\n']) ++ r.content ++ assembleGo regions (i + 1) .found ls := by
  rw [assembleGo_normal_cons, if_pos hs, hfind]
  dsimp only
  rw [if_neg (by simp [hne]), if_neg (fun hcontra => hcontra.2 hcl), List.append_nil]

/-- Skip mode runs over the plain body and re-emits the closing line. -/
theorem assembleGo_found_through (regions : List EvoRegion) (e : Chars)
    (rest : List Chars) (he : isStopLine e = true) :
    ∀ (body : List Chars) (i : Nat), (∀ x ∈ body, isPlainLine x = true) →
      assembleGo regions i .found (body ++ e :: rest)
        = (e ++ ['\n']) ++ assembleGo regions (i + body.length + 1) .normal rest := by
  intro body
  induction body with
  | nil =>
    intro i _
    rw [List.nil_append, assembleGo_found_cons, if_pos (by simp [stop_has_end he])]
    rfl
  | cons x t ih =>
    intro i hb
    rw [List.cons_append, assembleGo_found_cons,
      if_neg (by simp [plain_no_end (hb x (.head t))]),
      ih (i + 1) (fun y hy => hb y (.tail x hy)),
      show i + 1 + t.length + 1 = i + (x :: t).length + 1 from by simp; omega]

/-- Agreement survives dropping the head line. -/
theorem Agree_tail (regions : List EvoRegion) (i : Nat) (l : Chars) (t : List Chars)
    (h : Agree regions i (l :: t)) : Agree regions (i + 1) t := by
  intro j l' hj hst
  obtain ⟨r, hfind, hcont, hbne⟩ :=
    h (j + 1) l' (by rw [List.get?_cons_succ]; exact hj) hst
  refine ⟨r, ?_, ?_, ?_⟩
  · rw [show i + 1 + j = i + (j + 1) from by omega]
    exact hfind
  · rw [bodyAt_cons_succ] at hcont
    exact hcont
  · rw [bodyAt_cons_succ] at hbne
    exact hbne

/-- Agreement survives dropping a whole closed block. -/
theorem Agree_block (regions : List EvoRegion) (i : Nat) (l : Chars)
    (body : List Chars) (e : Chars) (rest : List Chars)
    (h : Agree regions i (l :: (body ++ e :: rest))) :
    Agree regions (i + body.length + 2) rest := by
  intro j l' hj hst
  obtain ⟨r, hfind, hcont, hbne⟩ :=
    h (body.length + 2 + j) l' (by rw [get?_block]; exact hj) hst
  refine ⟨r, ?_, ?_, ?_⟩
  · rw [show i + body.length + 2 + j = i + (body.length + 2 + j) from by omega]
    exact hfind
  · rw [bodyAt_block] at hcont
    exact hcont
  · rw [bodyAt_block] at hbne
    exact hbne

/-- Fuel-indexed reconstruction: on well-formed lines whose start lines the
regions cover, the walk reproduces the newline-joined line list. -/
theorem assemble_of_agree_aux (n : Nat) :
    ∀ (ls : List Chars), ls.length ≤ n → ∀ (regions : List EvoRegion) (i : Nat),
      wfGo false ls = true → Agree regions i ls →
      assembleGo regions i .normal ls = joinNl ls := by
  induction n with
  | zero =>
    intro ls hlen regions i _ _
    have hnil : ls = [] := List.eq_nil_of_length_eq_zero (Nat.le_zero.mp hlen)
    subst hnil
    rfl
  | succ n ih =>
    intro ls hlen regions i hwf hagree
    cases ls with
    | nil => rfl
    | cons l t =>
      by_cases hs : isStartLine l = true
      · obtain ⟨hne, hwt⟩ := wfGo_false_cons_start hwf hs
        obtain ⟨body, e, rest, ht, hb, he, hwr⟩ := wfGo_true_structure t hwt
        subst ht
        obtain ⟨r, hfind, hcont, hbne⟩ := hagree 0 l rfl hs
        rw [bodyAt_cons_zero, takeWhile_plains_append body e rest hb (stop_not_plain he)]
          at hcont hbne
        have hcl : r.content.getLast? = some '\n' := by
          rw [hcont]
          exact joinNl_getLast body hbne
        have hstep := assembleGo_normal_start_found regions i (body ++ e :: rest)
          (by rw [isStartLine] at hs; exact hs) hne hfind hcl
        rw [hstep, assembleGo_found_through regions e rest he body (i + 1) hb,
          show i + 1 + body.length + 1 = i + body.length + 2 from by omega,
          ih rest (by simp [List.length_append] at hlen; omega) regions
            (i + body.length + 2) hwr (Agree_block regions i l body e rest hagree),
          hcont]
        simp [joinNl_cons, joinNl_append, List.append_assoc]
      · have hs' : isStartLine l = false := by simpa using hs
        obtain ⟨hp, hwt⟩ := wfGo_false_cons_plain hwf hs'
        rw [assembleGo_normal_plain regions i t hp,
          ih t (by simp at hlen; omega) regions (i + 1) hwt
            (Agree_tail regions i l t hagree),
          joinNl_cons]

/-- Reconstruction over agreed regions reproduces the newline-joined lines. -/
theorem assemble_of_agree (ls : List Chars) (regions : List EvoRegion) (i : Nat)
    (hwf : wfGo false ls = true) (hagree : Agree regions i ls) :
    assembleGo regions i .normal ls = joinNl ls :=
  assemble_of_agree_aux ls.length ls (le_refl _) regions i hwf hagree

/-- C1, counterexample: on a source with one well-formed region, a blank line
and no final newline, `assemble(parse(code), code)` is NOT byte-for-byte
identical to the input outside the region body: the blank line is dropped and
a final newline is appended (`strtok` tokenization), even though the region
body itself is preserved exactly. -/
theorem parse_assemble_counterexample :
    wfLines (splitTok exampleSource) = true
    ∧ (parseEvolutionRegions exampleSource).regions.map EvoRegion.content
        = ["body\n".data]
    ∧ assembleEvolvedCode (parseEvolutionRegions exampleSource) exampleSource
        = "pre\n// BETA EVOLVE START: a\nbody\n// BETA EVOLVE END\npost\n".data
    ∧ assembleEvolvedCode (parseEvolutionRegions exampleSource) exampleSource
        ≠ exampleSource := by
  decide

/-- C1, amended: for a source whose marker pairs are well formed, with at most
4095 token lines, at most 50 regions, and a nonempty body in every region,
`assemble(parse(code), code)` reproduces the `strtok`-normalized text — the
nonempty lines of the input in order, each terminated by a newline (so marker
and non-region lines are preserved as lines, not byte-for-byte: empty lines
are dropped and a missing final newline is added); when the input has a start
marker somewhere this needs an actual start-marker token line, and without any
start marker the input is returned unchanged. -/
theorem parse_assemble_round_trip (code : Chars)
    (hwf : wfLines (splitTok code) = true)
    (hlen : (splitTok code).length ≤ 4095)
    (hcap : countBlocks (splitTok code) ≤ maxEvolutionRegions)
    (hbod : bodiesOk (splitTok code) = true) :
    (containsSeq markerStart code = true →
      (∃ l ∈ splitTok code, isStartLine l = true) →
      assembleEvolvedCode (parseEvolutionRegions code) code = joinNl (splitTok code))
    ∧ (containsSeq markerStart code = false →
        assembleEvolvedCode (parseEvolutionRegions code) code = code) := by
  constructor
  · intro hmark hstart
    have hpe : parseEvolutionRegions code
        = { regions := parseGo 0 0 none (splitTok code), evolution_enabled := true } := by
      unfold parseEvolutionRegions
      rw [if_pos hmark, List.take_of_length_le hlen]
    have hagree : Agree (parseGo 0 0 none (splitTok code)) 0 (splitTok code) :=
      parse_agree (splitTok code) 0 0 hwf (by rw [Nat.zero_add]; exact hcap) hbod
    obtain ⟨l0, hmem, hsl⟩ := hstart
    obtain ⟨j0, hj0⟩ := List.get?_of_mem hmem
    have hreg_ne : parseGo 0 0 none (splitTok code) ≠ [] := by
      intro hnil
      obtain ⟨r, hfindr, _, _⟩ := hagree j0 l0 hj0 hsl
      rw [hnil] at hfindr
      simp [findRegion] at hfindr
    rw [hpe]
    unfold assembleEvolvedCode
    rw [if_neg (by simp), if_neg (by simpa using hreg_ne)]
    exact assemble_of_agree (splitTok code) _ 0 hwf hagree
  · intro hmark
    unfold parseEvolutionRegions
    rw [if_neg (by simp [hmark])]
    rfl

/-- C1 witness: the amended round trip evaluated on the concrete example. -/
theorem parse_assemble_round_trip_witness :
    (wfLines (splitTok exampleSource) = true
      ∧ (splitTok exampleSource).length ≤ 4095
      ∧ countBlocks (splitTok exampleSource) ≤ maxEvolutionRegions
      ∧ bodiesOk (splitTok exampleSource) = true)
    ∧ assembleEvolvedCode (parseEvolutionRegions exampleSource) exampleSource
        = joinNl (splitTok exampleSource) :=
  ⟨⟨by decide, by decide, by decide, by decide⟩,
    (parse_assemble_round_trip exampleSource (by decide) (by decide) (by decide)
      (by decide)).1 (by decide) (by decide)⟩

end BetaEvolve
